import Mathlib

/-!
# svn-merge-tool: revision-log parsing, selection and commit-message generation

A shallow embedding of the pure core of `svn-merge-tool.go`:

* `parseSVNLog`           turns the text of `svn log` into revision records,
* `DisplayRevisions`      computes the rows of the revision table,
* `SelectSingleRevision`  reads an index from a scripted line source,
* `GenerateCommitMessage` renders the commit message.

Go strings are immutable byte sequences: `len` counts bytes and `s[:n]` cuts
bytes.  They are embedded as lists of bytes.  The library functions the
program calls (`strings.Split`, `strings.TrimSpace`, `strings.Join`,
`strconv.Atoi`, the compiled regular expression) are embedded with the
behaviour the Go standard library documents for them.
-/

set_option autoImplicit false

namespace SvnMergeTool

/-! ## Go strings -/

/-- A Go `string`: a finite sequence of bytes. -/
abbrev GoString := List UInt8

/-- The Go string denoted by a string literal: its UTF-8 encoding. -/
def str (s : String) : GoString := s.data.flatMap String.utf8EncodeChar

/-! ## Commit-message generation -/

/-- The function `GenerateCommitMessage` (source lines 275-291).  The package-level
variable `BranchNameDisplay` is an explicit first argument.  `fmt.Sprintf` with `%s`
verbs pastes the string arguments into the format text. -/
def GenerateCommitMessage (BranchNameDisplay : GoString) (mode : Int)
    (direction startRev endRev taskNumber : GoString) : GoString :=
  if mode = 1 then
    if direction = str "trunk-to-branch" then
      str "Merged " ++ startRev ++ str " from trunk to " ++ BranchNameDisplay
    else
      str "Merged " ++ startRev ++ str " from " ++ BranchNameDisplay ++ str " to trunk ("
        ++ taskNumber ++ str ")"
  else if mode = 2 then
    if direction = str "trunk-to-branch" then
      str "Merged branches " ++ startRev ++ str " - " ++ endRev ++ str " from trunk to "
        ++ BranchNameDisplay
    else
      str "Merged branches " ++ startRev ++ str " - " ++ endRev ++ str " from "
        ++ BranchNameDisplay ++ str " to trunk (" ++ taskNumber ++ str ")"
  else
    str "Merge commit"

/-! ## Library functions of package `strings` -/

/-- The scan of `strings.Split`: the first argument counts the bytes of a separator
occurrence that are still to be skipped.  Outside an occurrence, a position where the
separator starts closes the current piece; any other byte joins the current piece. -/
def splitGo (sep : GoString) : Nat → GoString → List GoString
  | _, [] => [[]]
  | skip + 1, _ :: rest => splitGo sep skip rest
  | 0, c :: rest =>
    if sep.isPrefixOf (c :: rest) then
      [] :: splitGo sep (sep.length - 1) rest
    else
      match splitGo sep 0 rest with
      | [] => [[c]]
      | piece :: pieces => (c :: piece) :: pieces

/-- The function `strings.Split(s, sep)` for a non-empty separator: the pieces of `s`
between consecutive non-overlapping occurrences of `sep`, found from left to right. -/
def Split (s sep : GoString) : List GoString := splitGo sep 0 s

/-- The function `strings.Join(elems, sep)`. -/
def Join (elems : List GoString) (sep : GoString) : GoString := sep.intercalate elems

/-- The ASCII white space of `strings.TrimSpace`: tab, line feed, vertical tab, form
feed, carriage return, space. -/
def isAsciiSpace (b : UInt8) : Bool :=
  b == 9 || b == 10 || b == 11 || b == 12 || b == 13 || b == 32

/-- The two-byte UTF-8 encodings of white space: U+0085 and U+00A0. -/
def isSpace2 (a b : UInt8) : Bool := a == 0xC2 && (b == 0x85 || b == 0xA0)

/-- The three-byte UTF-8 encodings of white space: U+1680, U+2000 to U+200A, U+2028,
U+2029, U+202F, U+205F and U+3000. -/
def isSpace3 (a b c : UInt8) : Bool :=
  (a == 0xE1 && b == 0x9A && c == 0x80) ||
  (a == 0xE2 && b == 0x80 && ((0x80 ≤ c && c ≤ 0x8A) || c == 0xA8 || c == 0xA9 || c == 0xAF)) ||
  (a == 0xE2 && b == 0x81 && c == 0x9F) ||
  (a == 0xE3 && b == 0x80 && c == 0x80)

/-- The width in bytes of the first rune of `s` when `unicode.IsSpace` holds of it, and
`0` when `s` is empty or starts with another rune (an invalid byte decodes to
`utf8.RuneError`, which is not white space). -/
def leadSpace : GoString → Nat
  | [] => 0
  | a :: t =>
    if isAsciiSpace a then 1
    else match t with
      | [] => 0
      | b :: u =>
        if isSpace2 a b then 2
        else match u with
          | [] => 0
          | c :: _ => if isSpace3 a b c then 3 else 0

/-- The same for the last rune, on the reversed string: the argument lists the bytes
from the last one backwards. -/
def trailSpace : GoString → Nat
  | [] => 0
  | c :: t =>
    if isAsciiSpace c then 1
    else match t with
      | [] => 0
      | b :: u =>
        if isSpace2 b c then 2
        else match u with
          | [] => 0
          | a :: _ => if isSpace3 a b c then 3 else 0

/-- Removes white-space runes from the front for as long as `width` finds one; the first
argument bounds the number of rounds. -/
def stripN (width : GoString → Nat) : Nat → GoString → GoString
  | 0, s => s
  | n + 1, s => if width s = 0 then s else stripN width n (s.drop (width s))

/-- The function `strings.TrimLeftFunc(s, unicode.IsSpace)`: `s` without the white-space
runes it starts with. -/
def TrimLeft (s : GoString) : GoString := stripN leadSpace s.length s

/-- The function `strings.TrimRightFunc(s, unicode.IsSpace)`: `s` without the white-space
runes it ends with, found from the end backwards. -/
def TrimRight (s : GoString) : GoString := (stripN trailSpace s.length s.reverse).reverse

/-- The function `strings.TrimSpace(s)`: `s` without its leading and trailing white
space. -/
def TrimSpace (s : GoString) : GoString := TrimRight (TrimLeft s)

/-! ## The header regular expression -/

/-- The class `\d` of Go regular expressions: ASCII digits. -/
def isDigit (b : UInt8) : Bool := 48 ≤ b && b ≤ 57

/-- The class `\s` of Go regular expressions: tab, line feed, form feed, carriage return,
space. -/
def isReSpace (b : UInt8) : Bool := b == 9 || b == 10 || b == 12 || b == 13 || b == 32

/-- The class `[^|]`. -/
def notBar (b : UInt8) : Bool := b != 124

/-- The part `\s*([^|]+)\s*\|` of the pattern, read at `s`: the text of the group and the
input left after the bar.  The bytes up to the next bar are the field; it must not be
empty.  The leading `\s*` takes the white space the field starts with, but leaves the
last byte to the group when the field is white space only. -/
def reField (s : GoString) : Option (GoString × GoString) :=
  let field := s.takeWhile notBar
  match s.dropWhile notBar with
  | [] => none
  | _ :: rest =>
    match field.getLast? with
    | none => none
    | some last =>
      let group := field.dropWhile isReSpace
      some (if group = [] then [last] else group, rest)

/-- The part `\s*\d+\s*lines?\s*$` of the pattern. -/
def reTail (s : GoString) : Bool :=
  let s1 := s.dropWhile isReSpace
  let count := s1.takeWhile isDigit
  let s2 := (s1.dropWhile isDigit).dropWhile isReSpace
  count != [] &&
    match s2 with
    | 108 :: 105 :: 110 :: 101 :: s3 =>
      let s4 := match s3 with
        | 115 :: s5 => s5
        | _ => s3
      s4.dropWhile isReSpace == []
    | _ => false

/-- The call `revRegex.FindStringSubmatch(headerLine)` for
`^r(\d+)\s*\|\s*([^|]+)\s*\|\s*([^|]+)\s*\|\s*\d+\s*lines?\s*$`: the empty slice when the
line does not match, and otherwise the whole match followed by the text of the three
groups. -/
def FindStringSubmatch (headerLine : GoString) : List GoString :=
  match headerLine with
  | 114 :: s0 =>
    let digits := s0.takeWhile isDigit
    if digits = [] then []
    else match (s0.dropWhile isDigit).dropWhile isReSpace with
      | 124 :: s1 =>
        match reField s1 with
        | none => []
        | some (author, s2) =>
          match reField s2 with
          | none => []
          | some (date, s3) =>
            if reTail s3 then [headerLine, digits, author, date] else []
      | _ => []
  | _ => []

/-! ## Parsing the log -/

/-- The record `Revision` (source lines 64-69). -/
structure Revision where
  Number : GoString
  Author : GoString
  Date : GoString
  Message : GoString
  deriving DecidableEq

/-- The divider of `svn log`: 72 hyphens. -/
def divider : GoString :=
  str "------------------------------------------------------------------------"

/-- The message lines of an entry (source lines 135-141): the lines after the first,
each trimmed, the empty ones left out. -/
def messageLines (lines : List GoString) : List GoString :=
  ((lines.drop 1).map TrimSpace).filter (fun line => line != [])

/-- The message lines joined by one space (source line 143). -/
def joinedMessage (lines : List GoString) : GoString := Join (messageLines lines) (str " ")

/-- The cap on the message (source lines 145-147). -/
def capMessage (message : GoString) : GoString :=
  if message.length > 60 then message.take 57 ++ str "..." else message

/-- One round of the loop of `parseSVNLog` (source lines 119-157): the record appended
for `entry`, if any. -/
def parseEntry (entry : GoString) : Option Revision :=
  let entry := TrimSpace entry
  if entry = [] then none
  else
    let lines := Split entry (str "\n")
    if lines.length < 2 then none
    else
      let headerLine := TrimSpace (lines.getD 0 [])
      let found := FindStringSubmatch headerLine
      if found.length ≥ 4 then
        some { Number := str "r" ++ found.getD 1 [],
               Author := TrimSpace (found.getD 2 []),
               Date := TrimSpace (found.getD 3 []),
               Message := capMessage (joinedMessage lines) }
      else none

/-- The loop of `parseSVNLog` over the entries, `revisions` being the slice built so
far. -/
def parseLoop : List GoString → List Revision → List Revision
  | [], revisions => revisions
  | entry :: rest, revisions =>
    match parseEntry entry with
    | some revision => parseLoop rest (revisions ++ [revision])
    | none => parseLoop rest revisions

/-- The function `parseSVNLog` (source lines 109-161): the records and the error, which
is always `nil`. -/
def parseSVNLog (logOutput : GoString) : List Revision × Option GoString :=
  (parseLoop (Split logOutput divider) [], none)

/-! ## Displaying the revisions -/

/-- The arguments of the `Printf` call that prints one row of the table (source line
181): the sequence number, the revision number, the author text and the message. -/
structure Row where
  No : Nat
  Number : GoString
  Author : GoString
  Message : GoString
  deriving DecidableEq

/-- The variables of `DisplayRevisions` while its loop runs: the elements of the slice
`revisions`, the loop variable `rev`, the local `author`, and the rows printed so far. -/
structure DisplayState where
  revisions : List Revision
  rev : Revision
  author : GoString
  printed : List Row
  deriving DecidableEq

/-- One round of the loop of `DisplayRevisions` for the index `i` (source lines 175-182):
`rev` receives a copy of the element, `author` receives `rev.Author`, the test on its
length assigns to `author` again, and `Printf` prints the row. -/
def displayRound (i : Nat) (s : DisplayState) : DisplayState :=
  match s.revisions[i]? with
  | none => s
  | some element =>
    let s1 := { s with rev := element }
    let s2 := { s1 with author := s1.rev.Author }
    let s3 := if s2.author.length > 15 then { s2 with author := s2.author.take 12 ++ str "..." }
      else s2
    { s3 with printed := s3.printed ++
        [{ No := i + 1, Number := s3.rev.Number, Author := s3.author, Message := s3.rev.Message }] }

/-- The rounds of the loop for the `n` indices from `i` on. -/
def displayRounds : Nat → Nat → DisplayState → DisplayState
  | 0, _, s => s
  | n + 1, i, s => displayRounds n (i + 1) (displayRound i s)

/-- The function `DisplayRevisions` (source lines 170-184): the rows printed, and the
elements of the slice `revisions` when the function returns. -/
def DisplayRevisions (revisions : List Revision) : List Row × List Revision :=
  let final := displayRounds revisions.length 0
    { revisions := revisions, rev := ⟨[], [], [], []⟩, author := [], printed := [] }
  (final.printed, final.revisions)

/-! ## Selecting a revision -/

/-- The value of a run of decimal digits. -/
def digitsValue (ds : GoString) : Nat :=
  ds.foldl (fun n ch => n * 10 + (ch - 48).toNat) 0

/-- The function `strconv.Atoi(s)` with a 64-bit `int`: `none` stands for a non-nil
error.  An optional sign is followed by one or more decimal digits and nothing else; a
value that does not fit the type `int` is an error too. -/
def Atoi (s : GoString) : Option Int :=
  match s with
  | [] => none
  | c :: t =>
    let neg : Bool := c == 45
    let ds := if c == 45 || c == 43 then t else s
    if ds = [] then none
    else if ds.all isDigit then
      let n := digitsValue ds
      if neg then (if n ≤ 2 ^ 63 then some (-(n : Int)) else none)
      else (if n < 2 ^ 63 then some (n : Int) else none)
    else none

/-- How a call that reads from a scripted line source ends. -/
inductive Outcome where
  /-- The call returns this string. -/
  | returned (number : GoString)
  /-- The script is used up: the call waits for another line. -/
  | waiting
  /-- An index out of range stops the program. -/
  | indexOutOfRange
  deriving DecidableEq

/-- The function `SelectSingleRevision` (source lines 204-217) reading the lines of
`script`, each one a result of `GetUserInput`. -/
def SelectSingleRevision (revisions : List Revision) : List GoString → Outcome
  | [] => Outcome.waiting
  | input :: script =>
    match Atoi input with
    | none => SelectSingleRevision revisions script
    | some choice =>
      if choice < 1 ∨ choice > (revisions.length : Int) then
        SelectSingleRevision revisions script
      else
        match revisions[(choice - 1).toNat]? with
        | some selected => Outcome.returned selected.Number
        | none => Outcome.indexOutOfRange

/-! ## The header grammar and the tests on a segment -/

/-- The language of the header pattern
`^r(\d+)\s*\|\s*([^|]+)\s*\|\s*([^|]+)\s*\|\s*\d+\s*lines?\s*$`, read off the pattern
piece by piece: `r`, digits, a bar-separated author field and date field (each one or more
bytes other than the bar, with optional white space around it), a line count, the word
`line` with an optional `s`, and optional white space between the pieces and at the end. -/
def HeaderGrammar (h : GoString) : Prop :=
  ∃ digits w1 w2 author w3 w4 date w5 w6 count w7 plural w8 : GoString,
    h = str "r" ++ digits ++ w1 ++ str "|" ++ w2 ++ author ++ w3 ++ str "|" ++ w4 ++ date ++ w5
          ++ str "|" ++ w6 ++ count ++ w7 ++ str "line" ++ plural ++ w8 ∧
    (digits ≠ [] ∧ ∀ b ∈ digits, isDigit b = true) ∧
    (author ≠ [] ∧ ∀ b ∈ author, notBar b = true) ∧
    (date ≠ [] ∧ ∀ b ∈ date, notBar b = true) ∧
    (count ≠ [] ∧ ∀ b ∈ count, isDigit b = true) ∧
    (plural = [] ∨ plural = str "s") ∧
    (∀ b ∈ w1, isReSpace b = true) ∧ (∀ b ∈ w2, isReSpace b = true) ∧
    (∀ b ∈ w3, isReSpace b = true) ∧ (∀ b ∈ w4, isReSpace b = true) ∧
    (∀ b ∈ w5, isReSpace b = true) ∧ (∀ b ∈ w6, isReSpace b = true) ∧
    (∀ b ∈ w7, isReSpace b = true) ∧ (∀ b ∈ w8, isReSpace b = true)

/-- The lines of a segment as the parser sees them: the trimmed segment split at line
feeds (source lines 119 and 124). -/
def linesOf (segment : GoString) : List GoString := Split (TrimSpace segment) (str "\n")

/-- The header line of a segment: the first line of the trimmed segment, trimmed (source
line 130). -/
def headerLineOf (segment : GoString) : GoString := TrimSpace ((linesOf segment).getD 0 [])

/-- The three tests a segment passes before a record is built from it: it is not empty
after trimming, it has at least two lines, and the pattern matches its header line
(source lines 120, 125 and 133). -/
def accepted (segment : GoString) : Bool :=
  TrimSpace segment != [] && decide (2 ≤ (linesOf segment).length) &&
    decide ((FindStringSubmatch (headerLineOf segment)).length ≥ 4)

/-- White space only: the scan for white-space runes from the front and the scan from the
back both use up all of `w`. -/
def blank (w : GoString) : Bool := TrimLeft w == [] && TrimRight w == []

/-- A sequence of white-space runes: the encodings of runes of which `unicode.IsSpace`
holds, one after the other. -/
inductive Spaces : GoString → Prop where
  | nil : Spaces []
  | ascii (b : UInt8) (w : GoString) : isAsciiSpace b = true → Spaces w → Spaces (b :: w)
  | two (a b : UInt8) (w : GoString) : isSpace2 a b = true → Spaces w → Spaces (a :: b :: w)
  | three (a b c : UInt8) (w : GoString) :
      isSpace3 a b c = true → Spaces w → Spaces (a :: b :: c :: w)

/-! ## Sample inputs -/

/-- A log of two entries; the message of the second is longer than 60 bytes. -/
def sampleLog : GoString :=
  str "------------------------------------------------------------------------\nr12 | alice | 2024-01-02 | 2 lines\n\nFix the parser\nand its tests\n------------------------------------------------------------------------\nr11 | bob | 2024-01-01 | 1 line\n\nA commit message that is clearly longer than sixty bytes and gets capped\n------------------------------------------------------------------------\n"

/-- The record of the first entry of `sampleLog`. -/
def sampleShort : Revision :=
  ⟨str "r12", str "alice", str "2024-01-02", str "Fix the parser and its tests"⟩

/-- The record of the second entry of `sampleLog`. -/
def sampleLong : Revision :=
  ⟨str "r11", str "bob", str "2024-01-01",
    str "A commit message that is clearly longer than sixty bytes ..."⟩

/-- A log of four entries: the header of the second is not in the language of the header
pattern, and the third has a header line and blank lines only. -/
def mixedLog : GoString :=
  str "------------------------------------------------------------------------\nr12 | alice | 2024-01-02 | 2 lines\n\nFix the parser\nand its tests\n------------------------------------------------------------------------\nrev 9 | carol | 2024-01-02 | 1 line\n\nnot a revision\n------------------------------------------------------------------------\nr11 | bob | 2024-01-01 | 1 line\n\n\n------------------------------------------------------------------------\nr10 | dave | 2024-01-01 | 1 line\n\nLast one\n------------------------------------------------------------------------\n"

/-- A message of 31 characters, each of two bytes in UTF-8. -/
def accentMessage : String := "ééééééééééééééééééééééééééééééé"

/-- The segment of a revision whose message is `accentMessage`. -/
def accentEntry : GoString :=
  str "\nr7 | zoe | 2024-01-01 | 1 line\n\n" ++ str accentMessage ++ str "\n"

/-- A log with the one entry `accentEntry`. -/
def accentLog : GoString := divider ++ accentEntry ++ divider ++ str "\n"

/-- The segment of a revision committed with an empty message: the header line and a
blank line. -/
def blankEntry : GoString := str "\nr5 | bob | 2024-01-01 | 1 line\n\n"

/-- A log with the one entry `blankEntry`. -/
def blankLog : GoString := divider ++ blankEntry ++ divider ++ str "\n"

set_option maxRecDepth 100000

/-! ## Lemmas: the parser -/

theorem parseLoop_eq (entries : List GoString) (revisions : List Revision) :
    parseLoop entries revisions = revisions ++ entries.filterMap parseEntry := by
  induction entries generalizing revisions with
  | nil => simp [parseLoop]
  | cons entry rest ih =>
    cases h : parseEntry entry with
    | none => simp [parseLoop, h, ih]
    | some r => simp [parseLoop, h, ih]

theorem parseSVNLog_eq (logOutput : GoString) :
    (parseSVNLog logOutput).1 = (Split logOutput divider).filterMap parseEntry := by
  simp [parseSVNLog, parseLoop_eq]

theorem mem_parseSVNLog (logOutput : GoString) (r : Revision) :
    r ∈ (parseSVNLog logOutput).1 ↔
      ∃ entry ∈ Split logOutput divider, parseEntry entry = some r := by
  simp [parseSVNLog_eq, List.mem_filterMap]

theorem FindStringSubmatch_cases (h : GoString) :
    FindStringSubmatch h = [] ∨
    ∃ s0 s1 author s2 date s3, h = 114 :: s0 ∧ s0.takeWhile isDigit ≠ [] ∧
      (s0.dropWhile isDigit).dropWhile isReSpace = 124 :: s1 ∧
      reField s1 = some (author, s2) ∧ reField s2 = some (date, s3) ∧ reTail s3 = true ∧
      FindStringSubmatch h = [h, s0.takeWhile isDigit, author, date] := by
  unfold FindStringSubmatch
  split
  · rename_i s0
    by_cases hd : s0.takeWhile isDigit = []
    · left; simp only [hd, if_true]
    · simp only [hd, if_false]
      split
      · rename_i s1 hs1
        split
        · left; rfl
        · rename_i author s2 ha
          split
          · left; rfl
          · rename_i date s3 hdate
            by_cases ht : reTail s3 = true
            · right
              exact ⟨s0, s1, author, s2, date, s3, rfl, hd, hs1, ha, hdate, ht, by simp [ht]⟩
            · left; simp [ht]
      · left; rfl
  · left; rfl

theorem parseEntry_eq_some (entry : GoString) (r : Revision) (h : parseEntry entry = some r) :
    TrimSpace entry ≠ [] ∧ 2 ≤ (Split (TrimSpace entry) (str "\n")).length ∧
    (FindStringSubmatch (TrimSpace ((Split (TrimSpace entry) (str "\n")).getD 0 []))).length ≥ 4 ∧
    r = { Number := str "r" ++
            (FindStringSubmatch (TrimSpace ((Split (TrimSpace entry) (str "\n")).getD 0 []))).getD 1 [],
          Author := TrimSpace
            ((FindStringSubmatch (TrimSpace ((Split (TrimSpace entry) (str "\n")).getD 0 []))).getD 2 []),
          Date := TrimSpace
            ((FindStringSubmatch (TrimSpace ((Split (TrimSpace entry) (str "\n")).getD 0 []))).getD 3 []),
          Message := capMessage (joinedMessage (Split (TrimSpace entry) (str "\n"))) } := by
  unfold parseEntry at h
  simp only at h
  split at h
  · simp at h
  · rename_i h1
    split at h
    · simp at h
    · rename_i h2
      split at h
      · rename_i h3
        exact ⟨h1, by omega, h3, (Option.some.inj h).symm⟩
      · simp at h

theorem capMessage_spec (m : GoString) :
    (m.length ≤ 60 → capMessage m = m) ∧
    (m.length > 60 → capMessage m = m.take 57 ++ str "..." ∧ (capMessage m).length = 60) := by
  have h3 : (str "...").length = 3 := by decide
  constructor
  · intro h; simp [capMessage]; omega
  · intro h; simp [capMessage, h, h3]; omega

theorem isReSpace_cases (b : UInt8) (h : isReSpace b = true) :
    b = 9 ∨ b = 10 ∨ b = 12 ∨ b = 13 ∨ b = 32 := by
  simpa [isReSpace, or_assoc] using h

theorem isReSpace_not_digit (b : UInt8) (h : isReSpace b = true) : isDigit b = false := by
  rcases isReSpace_cases b h with rfl | rfl | rfl | rfl | rfl <;> decide

theorem isReSpace_notBar (b : UInt8) (h : isReSpace b = true) : notBar b = true := by
  rcases isReSpace_cases b h with rfl | rfl | rfl | rfl | rfl <;> decide

theorem isDigit_not_space (b : UInt8) (h : isDigit b = true) : isReSpace b = false := by
  cases hs : isReSpace b with
  | false => rfl
  | true => rw [isReSpace_not_digit b hs] at h; exact absurd h (by decide)

theorem dropWhile_of_takeWhile_nil (p : UInt8 → Bool) (l : GoString)
    (h : l.takeWhile p = []) : l.dropWhile p = l := by
  have := List.takeWhile_append_dropWhile p l
  rw [h] at this
  simpa using this

theorem takeWhile_stop (p : UInt8 → Bool) (a rest : GoString) (ha : ∀ b ∈ a, p b = true)
    (hrest : rest.takeWhile p = []) :
    (a ++ rest).takeWhile p = a ∧ (a ++ rest).dropWhile p = rest := by
  rw [List.takeWhile_append_of_pos ha, List.dropWhile_append_of_pos ha, hrest,
    dropWhile_of_takeWhile_nil p rest hrest]
  simp

theorem takeWhile_nil_of_head (p : UInt8 → Bool) (b : UInt8) (l : GoString) (h : p b = false) :
    (b :: l).takeWhile p = [] := by
  simp [List.takeWhile_cons, h]

theorem notBar_false (b : UInt8) (h : notBar b = false) : b = 124 := by
  simpa [notBar] using h

theorem reField_sound (s g rest : GoString) (h : reField s = some (g, rest)) :
    ∃ f, s = f ++ 124 :: rest ∧ f ≠ [] ∧ ∀ b ∈ f, notBar b = true := by
  unfold reField at h
  simp only at h
  split at h
  · simp at h
  · rename_i x rest' hdrop
    split at h
    · simp at h
    · rename_i last hlast
      have hrest : rest' = rest := by
        have := Option.some.inj h
        exact (Prod.mk.inj this).2
      subst hrest
      have hx : x = 124 := by
        have := List.head_dropWhile_not notBar s (by simp [hdrop])
        simp only [hdrop, List.head_cons] at this
        exact notBar_false x this
      subst hx
      refine ⟨s.takeWhile notBar, ?_, ?_, fun b hb => List.mem_takeWhile_imp hb⟩
      · rw [← hdrop, List.takeWhile_append_dropWhile]
      · intro hnil
        simp [hnil] at hlast

theorem reField_complete (f rest : GoString) (hf : f ≠ []) (hbar : ∀ b ∈ f, notBar b = true) :
    ∃ g, reField (f ++ 124 :: rest) = some (g, rest) := by
  obtain ⟨ht, hd⟩ := takeWhile_stop notBar f (124 :: rest) hbar
    (takeWhile_nil_of_head notBar 124 rest (by decide))
  unfold reField
  simp only [ht, hd]
  cases hl : f.getLast? with
  | none => simp [List.getLast?_eq_none_iff] at hl; exact absurd hl hf
  | some last => exact ⟨_, rfl⟩

theorem str_line : str "line" = [108, 105, 110, 101] := by decide

theorem str_s : str "s" = [115] := by decide

theorem reTail_sound (s : GoString) (h : reTail s = true) :
    ∃ w6 count w7 plural w8, s = w6 ++ count ++ w7 ++ str "line" ++ plural ++ w8 ∧
      (count ≠ [] ∧ ∀ b ∈ count, isDigit b = true) ∧ (plural = [] ∨ plural = str "s") ∧
      (∀ b ∈ w6, isReSpace b = true) ∧ (∀ b ∈ w7, isReSpace b = true) ∧
      (∀ b ∈ w8, isReSpace b = true) := by
  unfold reTail at h
  simp only [Bool.and_eq_true, bne_iff_ne, ne_eq] at h
  obtain ⟨hcount, hm⟩ := h
  have e1 : s = s.takeWhile isReSpace ++ s.dropWhile isReSpace :=
    (List.takeWhile_append_dropWhile _ _).symm
  have e2 : s.dropWhile isReSpace = (s.dropWhile isReSpace).takeWhile isDigit ++
      (s.dropWhile isReSpace).dropWhile isDigit := (List.takeWhile_append_dropWhile _ _).symm
  have e3 : (s.dropWhile isReSpace).dropWhile isDigit
      = ((s.dropWhile isReSpace).dropWhile isDigit).takeWhile isReSpace ++
        ((s.dropWhile isReSpace).dropWhile isDigit).dropWhile isReSpace :=
    (List.takeWhile_append_dropWhile _ _).symm
  split at hm
  · rename_i s3 hs2
    have hfinal : ∀ plural w8 : GoString, s3 = plural ++ w8 → (plural = [] ∨ plural = str "s") →
        (∀ b ∈ w8, isReSpace b = true) →
        ∃ w6 count w7 plural w8, s = w6 ++ count ++ w7 ++ str "line" ++ plural ++ w8 ∧
          (count ≠ [] ∧ ∀ b ∈ count, isDigit b = true) ∧ (plural = [] ∨ plural = str "s") ∧
          (∀ b ∈ w6, isReSpace b = true) ∧ (∀ b ∈ w7, isReSpace b = true) ∧
          (∀ b ∈ w8, isReSpace b = true) := by
      intro plural w8 hs3 hpl hw8
      refine ⟨s.takeWhile isReSpace, (s.dropWhile isReSpace).takeWhile isDigit,
        ((s.dropWhile isReSpace).dropWhile isDigit).takeWhile isReSpace, plural, w8, ?_,
        ⟨hcount, fun b hb => List.mem_takeWhile_imp hb⟩, hpl,
        fun b hb => List.mem_takeWhile_imp hb, fun b hb => List.mem_takeWhile_imp hb, hw8⟩
      rw [str_line]
      simp only [List.append_assoc, List.cons_append, List.nil_append]
      rw [← hs3, ← hs2, ← e3, ← e2, ← e1]
    split at hm
    · rename_i s5
      exact hfinal [115] s5 rfl (Or.inr str_s.symm)
        (List.dropWhile_eq_nil_iff.1 (by simpa using hm))
    · exact hfinal [] s3 rfl (Or.inl rfl) (List.dropWhile_eq_nil_iff.1 (by simpa using hm))
  · simp at hm

theorem takeWhile_space_then (w rest : GoString) (b : UInt8) (p : UInt8 → Bool)
    (hw : ∀ x ∈ w, isReSpace x = true) (hp : ∀ x, isReSpace x = true → p x = false)
    (hb : p b = false) : (w ++ b :: rest).takeWhile p = [] := by
  cases w with
  | nil => exact takeWhile_nil_of_head p b rest hb
  | cons x xs => exact takeWhile_nil_of_head p x _ (hp x (hw x (by simp)))

theorem dropWhile_space_then (w rest : GoString) (b : UInt8)
    (hw : ∀ x ∈ w, isReSpace x = true) (hb : isReSpace b = false) :
    (w ++ b :: rest).dropWhile isReSpace = b :: rest :=
  (takeWhile_stop isReSpace w (b :: rest) hw (takeWhile_nil_of_head _ b rest hb)).2

theorem reTail_complete (w6 count w7 plural w8 : GoString)
    (hcount : count ≠ [] ∧ ∀ b ∈ count, isDigit b = true)
    (hpl : plural = [] ∨ plural = str "s")
    (h6 : ∀ b ∈ w6, isReSpace b = true) (h7 : ∀ b ∈ w7, isReSpace b = true)
    (h8 : ∀ b ∈ w8, isReSpace b = true) :
    reTail (w6 ++ count ++ w7 ++ str "line" ++ plural ++ w8) = true := by
  obtain ⟨c0, cs, rfl⟩ := List.exists_cons_of_ne_nil hcount.1
  have hc0 : isDigit c0 = true := hcount.2 c0 (by simp)
  have hw8 : w8.dropWhile isReSpace = [] := List.dropWhile_eq_nil_iff.2 h8
  rw [str_line]
  simp only [List.append_assoc, List.cons_append, List.nil_append]
  have hs1 : (w6 ++ c0 :: (cs ++ (w7 ++ 108 :: 105 :: 110 :: 101 :: (plural ++ w8)))).dropWhile
      isReSpace = (c0 :: cs) ++ (w7 ++ 108 :: 105 :: 110 :: 101 :: (plural ++ w8)) :=
    dropWhile_space_then w6 _ c0 h6 (isDigit_not_space c0 hc0)
  obtain ⟨ht, hd⟩ := takeWhile_stop isDigit (c0 :: cs)
    (w7 ++ 108 :: 105 :: 110 :: 101 :: (plural ++ w8)) hcount.2
    (takeWhile_space_then w7 _ 108 isDigit h7 isReSpace_not_digit (by decide))
  have hs2 := dropWhile_space_then w7 (105 :: 110 :: 101 :: (plural ++ w8)) 108 h7 (by decide)
  unfold reTail
  simp only [hs1, ht, hd, hs2]
  rcases hpl with rfl | rfl
  · cases w8 with
    | nil => simp
    | cons x xs =>
      have hx : isReSpace x = true := h8 x (by simp)
      have hne : x ≠ 115 := by
        intro h; subst h; exact absurd hx (by decide)
      simp only [List.nil_append]
      split
      · rename_i s5 heq
        exact absurd (List.cons.inj heq).1 hne
      · simp [hw8]
  · rw [str_s]
    simp [hw8]

theorem str_r : str "r" = [114] := by decide

theorem str_bar : str "|" = [124] := by decide

theorem HeaderGrammar_of_match (h : GoString) (hm : (FindStringSubmatch h).length ≥ 4) :
    HeaderGrammar h := by
  rcases FindStringSubmatch_cases h with h0 | ⟨s0, s1, author, s2, date, s3, hh, hd, hs1, ha, hdt,
    ht, -⟩
  · rw [h0] at hm; simp at hm
  · obtain ⟨f1, hf1, hf1ne, hf1bar⟩ := reField_sound s1 author s2 ha
    obtain ⟨f2, hf2, hf2ne, hf2bar⟩ := reField_sound s2 date s3 hdt
    obtain ⟨w6, count, w7, plural, w8, hs3, hcount, hpl, h6, h7, h8⟩ := reTail_sound s3 ht
    refine ⟨s0.takeWhile isDigit, (s0.dropWhile isDigit).takeWhile isReSpace, [], f1, [], [], f2,
      [], w6, count, w7, plural, w8, ?_, ⟨hd, fun b hb => List.mem_takeWhile_imp hb⟩,
      ⟨hf1ne, hf1bar⟩, ⟨hf2ne, hf2bar⟩, hcount, hpl, fun b hb => List.mem_takeWhile_imp hb,
      by simp, by simp, by simp, by simp, h6, h7, h8⟩
    have e1 : s0 = s0.takeWhile isDigit ++ ((s0.dropWhile isDigit).takeWhile isReSpace ++
        (s0.dropWhile isDigit).dropWhile isReSpace) := by
      rw [List.takeWhile_append_dropWhile, List.takeWhile_append_dropWhile]
    rw [hh, str_r, str_bar]
    simp only [List.append_assoc, List.cons_append, List.nil_append, List.append_nil]
    congr 1
    rw [← List.append_assoc w6, ← List.append_assoc (w6 ++ count), ← List.append_assoc _ (str "line"),
      ← List.append_assoc _ plural, ← hs3, ← hf2, ← hf1, ← hs1]
    exact e1

theorem match_of_HeaderGrammar (h : GoString) (hg : HeaderGrammar h) :
    (FindStringSubmatch h).length ≥ 4 := by
  obtain ⟨digits, w1, w2, author, w3, w4, date, w5, w6, count, w7, plural, w8, hh, hdig, hauth,
    hdate, hcount, hpl, h1, h2, h3, h4, h5, h6, h7, h8⟩ := hg
  have hf1 : ∀ b ∈ w2 ++ author ++ w3, notBar b = true := by
    intro b hb
    simp only [List.mem_append] at hb
    rcases hb with (hb | hb) | hb
    · exact isReSpace_notBar b (h2 b hb)
    · exact hauth.2 b hb
    · exact isReSpace_notBar b (h3 b hb)
  have hf2 : ∀ b ∈ w4 ++ date ++ w5, notBar b = true := by
    intro b hb
    simp only [List.mem_append] at hb
    rcases hb with (hb | hb) | hb
    · exact isReSpace_notBar b (h4 b hb)
    · exact hdate.2 b hb
    · exact isReSpace_notBar b (h5 b hb)
  have ht := reTail_complete w6 count w7 plural w8 hcount hpl h6 h7 h8
  obtain ⟨g2, hg2⟩ := reField_complete (w4 ++ date ++ w5)
    (w6 ++ count ++ w7 ++ str "line" ++ plural ++ w8) (by simp [hdate.1]) hf2
  obtain ⟨g1, hg1⟩ := reField_complete (w2 ++ author ++ w3)
    ((w4 ++ date ++ w5) ++ 124 :: (w6 ++ count ++ w7 ++ str "line" ++ plural ++ w8))
    (by simp [hauth.1]) hf1
  have hs0 : h = 114 :: (digits ++ (w1 ++ 124 :: ((w2 ++ author ++ w3) ++
      124 :: ((w4 ++ date ++ w5) ++ 124 :: (w6 ++ count ++ w7 ++ str "line" ++ plural ++ w8))))) := by
    rw [hh, str_r, str_bar]; simp
  obtain ⟨htk, hdr⟩ := takeWhile_stop isDigit digits
    (w1 ++ 124 :: ((w2 ++ author ++ w3) ++
      124 :: ((w4 ++ date ++ w5) ++ 124 :: (w6 ++ count ++ w7 ++ str "line" ++ plural ++ w8))))
    hdig.2 (takeWhile_space_then w1 _ 124 isDigit h1 isReSpace_not_digit (by decide))
  have hsp := dropWhile_space_then w1 ((w2 ++ author ++ w3) ++
      124 :: ((w4 ++ date ++ w5) ++ 124 :: (w6 ++ count ++ w7 ++ str "line" ++ plural ++ w8)))
      124 h1 (by decide)
  rw [hs0]
  unfold FindStringSubmatch
  simp only [htk, hdr, hsp, hdig.1, if_false, hg1, hg2, ht, if_true]
  simp

theorem FindStringSubmatch_iff (h : GoString) :
    (FindStringSubmatch h).length ≥ 4 ↔ HeaderGrammar h :=
  ⟨HeaderGrammar_of_match h, match_of_HeaderGrammar h⟩

theorem leadSpace_le_three (s : GoString) : leadSpace s ≤ 3 := by
  match s with
  | [] => simp [leadSpace]
  | [a] => simp only [leadSpace]; split <;> simp
  | [a, b] => simp only [leadSpace]; split <;> (try split) <;> simp
  | a :: b :: c :: t => simp only [leadSpace]; split <;> (try split) <;> (try split) <;> simp

theorem leadSpace_le (s : GoString) : leadSpace s ≤ s.length := by
  match s with
  | [] => simp [leadSpace]
  | [a] => simp only [leadSpace]; split <;> simp
  | [a, b] => simp only [leadSpace]; split <;> (try split) <;> simp
  | a :: b :: c :: t => simp only [leadSpace]; split <;> (try split) <;> (try split) <;> simp

theorem trailSpace_le (s : GoString) : trailSpace s ≤ s.length := by
  match s with
  | [] => simp [trailSpace]
  | [a] => simp only [trailSpace]; split <;> simp
  | [a, b] => simp only [trailSpace]; split <;> (try split) <;> simp
  | a :: b :: c :: t => simp only [trailSpace]; split <;> (try split) <;> (try split) <;> simp

theorem trailSpace_append (r t : GoString) (h : trailSpace r ≠ 0) :
    trailSpace (r ++ t) = trailSpace r := by
  match r with
  | [] => simp [trailSpace] at h
  | [a] =>
    simp only [trailSpace] at h ⊢
    by_cases ha : isAsciiSpace a = true
    · simp [trailSpace, ha]
    · simp [ha] at h
  | [a, b] =>
    by_cases ha : isAsciiSpace a = true
    · simp [trailSpace, ha]
    · by_cases hb : isSpace2 b a = true
      · simp [trailSpace, ha, hb]
      · simp [trailSpace, ha, hb] at h
  | a :: b :: c :: u =>
    by_cases ha : isAsciiSpace a = true
    · simp [trailSpace, ha]
    · by_cases hb : isSpace2 b a = true
      · simp [trailSpace, ha, hb]
      · simp [trailSpace, ha, hb]

theorem stripN_width_eq_zero (width : GoString → Nat) (hw : ∀ s, width s ≤ s.length)
    (n : Nat) (s : GoString) (h : s.length ≤ n) : width (stripN width n s) = 0 := by
  induction n generalizing s with
  | zero =>
    have : s = [] := List.eq_nil_of_length_eq_zero (by omega)
    subst this
    simpa [stripN] using hw []
  | succ n ih =>
    simp only [stripN]
    split
    · assumption
    · rename_i hne
      apply ih
      simp only [List.length_drop]
      omega

theorem stripN_suffix (width : GoString → Nat) (n : Nat) (s : GoString) :
    ∃ a, s = a ++ stripN width n s := by
  induction n generalizing s with
  | zero => exact ⟨[], rfl⟩
  | succ n ih =>
    simp only [stripN]
    split
    · exact ⟨[], rfl⟩
    · obtain ⟨a, ha⟩ := ih (s.drop (width s))
      refine ⟨s.take (width s) ++ a, ?_⟩
      rw [List.append_assoc, ← ha, List.take_append_drop]

theorem trailSpace_reverse_of_leadSpace (s : GoString) (hs : s ≠ [])
    (h : leadSpace s = s.length) : trailSpace s.reverse ≠ 0 := by
  match s with
  | [] => exact absurd rfl hs
  | [a] =>
    by_cases ha : isAsciiSpace a = true
    · simp [trailSpace, ha]
    · simp [leadSpace, ha] at h
  | [a, b] =>
    by_cases ha : isAsciiSpace a = true
    · simp [leadSpace, ha] at h
    · by_cases hab : isSpace2 a b = true
      · by_cases hb : isAsciiSpace b = true
        · simp [trailSpace, hb]
        · simp [trailSpace, hb, hab]
      · simp [leadSpace, ha, hab] at h
  | [a, b, c] =>
    by_cases ha : isAsciiSpace a = true
    · simp [leadSpace, ha] at h
    · by_cases hab : isSpace2 a b = true
      · simp [leadSpace, ha, hab] at h
      · by_cases habc : isSpace3 a b c = true
        · by_cases hc : isAsciiSpace c = true
          · simp [trailSpace, hc]
          · by_cases hbc : isSpace2 b c = true
            · simp [trailSpace, hc, hbc]
            · simp [trailSpace, hc, hbc, habc]
        · simp [leadSpace, ha, hab, habc] at h
  | a :: b :: c :: d :: t =>
    have := leadSpace_le (a :: b :: c :: d :: t)
    have h3 := leadSpace_le_three (a :: b :: c :: d :: t)
    simp only [List.length_cons] at h
    omega

theorem stripN_leadSpace_eq_nil (n : Nat) (s : GoString) (hs : s ≠ [])
    (h : stripN leadSpace n s = []) : trailSpace s.reverse ≠ 0 := by
  induction n generalizing s with
  | zero => exact absurd h hs
  | succ n ih =>
    simp only [stripN] at h
    split at h
    · exact absurd h hs
    · rename_i hw
      by_cases hd : s.drop (leadSpace s) = []
      · apply trailSpace_reverse_of_leadSpace s hs
        have h1 := leadSpace_le s
        have h2 : s.length ≤ leadSpace s := by
          simpa [List.drop_eq_nil_iff] using hd
        omega
      · have h1 := ih (s.drop (leadSpace s)) hd h
        have h2 : s.reverse = (s.drop (leadSpace s)).reverse ++ (s.take (leadSpace s)).reverse := by
          rw [← List.reverse_append, List.take_append_drop]
        rw [h2, trailSpace_append _ _ h1]
        exact h1

theorem trailSpace_TrimRight (s : GoString) : trailSpace (TrimRight s).reverse = 0 := by
  simp only [TrimRight, List.reverse_reverse]
  exact stripN_width_eq_zero trailSpace trailSpace_le _ _ (by simp)

theorem TrimSpace_ne_nil (s : GoString) (hs : s ≠ []) (h : trailSpace s.reverse = 0) :
    TrimSpace s ≠ [] := by
  by_cases hl : TrimLeft s = []
  · exact absurd h (stripN_leadSpace_eq_nil _ s hs hl)
  · obtain ⟨a, ha⟩ := stripN_suffix leadSpace s.length s
    have hm : trailSpace (TrimLeft s).reverse = 0 := by
      by_contra hne
      have h2 : s.reverse = (TrimLeft s).reverse ++ a.reverse := by
        rw [← List.reverse_append]; exact congrArg List.reverse ha
      rw [h2, trailSpace_append _ _ hne] at h
      exact hne h
    have hlen : (TrimLeft s).length ≠ 0 := by
      intro h0; exact hl (List.eq_nil_of_length_eq_zero h0)
    obtain ⟨k, hk⟩ := Nat.exists_eq_succ_of_ne_zero hlen
    simp only [TrimSpace, TrimRight, hk, stripN, hm, if_true, List.reverse_reverse]
    exact hl

theorem splitGo_newline (e : GoString) :
    ∃ init last pre, splitGo [10] 0 e = init ++ [last] ∧ e = pre ++ last ∧
      (init = [] → pre = []) ∧ (init ≠ [] → ∃ p, pre = p ++ [10]) := by
  induction e with
  | nil => exact ⟨[], [], [], rfl, rfl, fun _ => rfl, fun h => absurd rfl h⟩
  | cons c rest ih =>
    obtain ⟨init, last, pre, hsplit, he, h1, h2⟩ := ih
    by_cases hc : c = 10
    · subst hc
      refine ⟨[] :: init, last, 10 :: pre, ?_, by simp [he], by simp, fun _ => ?_⟩
      · simp [splitGo, hsplit]
      · by_cases hi : init = []
        · exact ⟨[], by simp [h1 hi]⟩
        · obtain ⟨p, hp⟩ := h2 hi
          exact ⟨10 :: p, by simp [hp]⟩
    · have hpre : List.isPrefixOf [10] (c :: rest) = false := by
        simp [List.isPrefixOf, Ne.symm hc]
      cases init with
      | nil =>
        refine ⟨[], c :: last, [], ?_, ?_, fun _ => rfl, fun h => absurd rfl h⟩
        · simp [splitGo, hpre, hsplit]
        · simp [he, h1 rfl]
      | cons i0 is =>
        obtain ⟨p, hp⟩ := h2 (by simp)
        refine ⟨(c :: i0) :: is, last, c :: pre, ?_, by simp [he], by simp, fun _ => ?_⟩
        · simp [splitGo, hpre, hsplit]
        · exact ⟨c :: p, by simp [hp]⟩

theorem str_newline : str "\n" = [10] := by decide

theorem intercalate_cons_cons (sep y z : GoString) (zs : List GoString) :
    sep.intercalate (y :: z :: zs) = y ++ sep ++ sep.intercalate (z :: zs) := by
  simp [List.intercalate]

theorem intercalate_ne_nil (sep x : GoString) (xs : List GoString) (hx : x ∈ xs) (hne : x ≠ []) :
    sep.intercalate xs ≠ [] := by
  induction xs with
  | nil => simp at hx
  | cons y ys ih =>
    cases ys with
    | nil =>
      simp at hx
      subst hx
      simpa [List.intercalate] using hne
    | cons z zs =>
      rw [intercalate_cons_cons]
      simp only [List.mem_cons] at hx
      rcases hx with rfl | hx
      · simp [hne]
      · have := ih (by simpa using hx)
        simp [this]

theorem joinedMessage_ne_nil (e : GoString) (he : trailSpace e.reverse = 0)
    (hlen : 2 ≤ (Split e (str "\n")).length) :
    messageLines (Split e (str "\n")) ≠ [] ∧ joinedMessage (Split e (str "\n")) ≠ [] ∧
    ∃ last, (Split e (str "\n")).getLast? = some last ∧ TrimSpace last ≠ [] := by
  obtain ⟨init, last, pre, hsplit, hpre, -, h2⟩ := splitGo_newline e
  rw [str_newline] at hlen ⊢
  simp only [Split] at hlen ⊢
  rw [hsplit] at hlen ⊢
  have hinit : init ≠ [] := by
    intro h; subst h; simp at hlen
  obtain ⟨p, hp⟩ := h2 hinit
  have hrev : e.reverse = last.reverse ++ 10 :: p.reverse := by
    rw [hpre, hp]; simp
  have hlast : last ≠ [] := by
    intro h
    rw [hrev, h] at he
    simp [trailSpace, isAsciiSpace] at he
  have htrail : trailSpace last.reverse = 0 := by
    by_contra hne
    rw [hrev, trailSpace_append _ _ hne] at he
    exact hne he
  have htrim := TrimSpace_ne_nil last hlast htrail
  have hmem : TrimSpace last ∈ messageLines (init ++ [last]) := by
    cases init with
    | nil => exact absurd rfl hinit
    | cons i0 is => simp [messageLines, htrim]
  exact ⟨List.ne_nil_of_mem hmem, intercalate_ne_nil _ _ _ hmem htrim, last, by simp, htrim⟩

theorem capMessage_ne_nil (m : GoString) (h : m ≠ []) : capMessage m ≠ [] := by
  unfold capMessage
  split
  · have : str "..." ≠ [] := by decide
    simp [this]
  · exact h

theorem parseEntry_message_ne_nil (entry : GoString) (r : Revision)
    (h : parseEntry entry = some r) :
    r.Message ≠ [] ∧ messageLines (Split (TrimSpace entry) (str "\n")) ≠ [] ∧
    ∃ last, (Split (TrimSpace entry) (str "\n")).getLast? = some last ∧ TrimSpace last ≠ [] := by
  obtain ⟨-, hlen, -, hr⟩ := parseEntry_eq_some entry r h
  have hj := joinedMessage_ne_nil (TrimSpace entry) (trailSpace_TrimRight _) hlen
  rw [hr]
  exact ⟨capMessage_ne_nil _ hj.2.1, hj.1, hj.2.2⟩

theorem leadSpace_append (r t : GoString) (h : leadSpace r ≠ 0) :
    leadSpace (r ++ t) = leadSpace r := by
  match r with
  | [] => simp [leadSpace] at h
  | [a] =>
    by_cases ha : isAsciiSpace a = true
    · simp [leadSpace, ha]
    · simp [leadSpace, ha] at h
  | [a, b] =>
    by_cases ha : isAsciiSpace a = true
    · simp [leadSpace, ha]
    · by_cases hb : isSpace2 a b = true
      · simp [leadSpace, ha, hb]
      · simp [leadSpace, ha, hb] at h
  | a :: b :: c :: u =>
    by_cases ha : isAsciiSpace a = true
    · simp [leadSpace, ha]
    · by_cases hb : isSpace2 a b = true
      · simp [leadSpace, ha, hb]
      · simp [leadSpace, ha, hb]

theorem TrimRight_initial (m : GoString) : ∃ b, m = TrimRight m ++ b := by
  obtain ⟨a, ha⟩ := stripN_suffix trailSpace m.length m.reverse
  refine ⟨a.reverse, ?_⟩
  have := congrArg List.reverse ha
  simpa [TrimRight] using this

theorem splitGo_no_newline (e : GoString) (h : (10 : UInt8) ∉ e) : splitGo [10] 0 e = [e] := by
  induction e with
  | nil => rfl
  | cons c rest ih =>
    have hc : c ≠ 10 := fun hc => h (by simp [hc])
    have hrest : (10 : UInt8) ∉ rest := fun hr => h (by simp [hr])
    have hpre : List.isPrefixOf [10] (c :: rest) = false := by
      simp [List.isPrefixOf, Ne.symm hc]
    simp [splitGo, hpre, ih hrest]

theorem parseEntry_single_line (entry : GoString)
    (h : TrimSpace entry = [] ∨ (10 : UInt8) ∉ TrimSpace entry) : parseEntry entry = none := by
  by_cases hne : TrimSpace entry = []
  · simp [parseEntry, hne]
  · have hno : (10 : UInt8) ∉ TrimSpace entry := h.resolve_left hne
    have hsplit : Split (TrimSpace entry) (str "\n") = [TrimSpace entry] := by
      rw [str_newline]
      exact splitGo_no_newline _ hno
    simp [parseEntry, hne, hsplit]

theorem linesOf_single_line (entry : GoString)
    (h : TrimSpace entry = [] ∨ (10 : UInt8) ∉ TrimSpace entry) :
    linesOf entry = [TrimSpace entry] := by
  unfold linesOf
  rw [str_newline]
  rcases h with h | h
  · rw [h]; rfl
  · exact splitGo_no_newline _ h

/-! ## Lemmas: white space around a header line -/

theorem stripN_succ_of_le (width : GoString → Nat) (hw : ∀ s, width s ≤ s.length) (n : Nat)
    (s : GoString) (h : s.length ≤ n) : stripN width (n + 1) s = stripN width n s := by
  induction n generalizing s with
  | zero =>
    have hs : s = [] := List.eq_nil_of_length_eq_zero (by omega)
    subst hs
    have h0 : width [] = 0 := by simpa using hw []
    simp [stripN, h0]
  | succ n ih =>
    have e1 : stripN width (n + 1 + 1) s
        = if width s = 0 then s else stripN width (n + 1) (s.drop (width s)) := rfl
    have e2 : stripN width (n + 1) s
        = if width s = 0 then s else stripN width n (s.drop (width s)) := rfl
    rw [e1, e2]
    split
    · rfl
    · rename_i hne
      apply ih
      have := hw s
      simp only [List.length_drop]
      omega

theorem stripN_of_le (width : GoString → Nat) (hw : ∀ s, width s ≤ s.length) (n : Nat)
    (s : GoString) (h : s.length ≤ n) : stripN width n s = stripN width s.length s := by
  induction n with
  | zero =>
    have hs : s = [] := List.eq_nil_of_length_eq_zero (by omega)
    subst hs
    rfl
  | succ n ih =>
    by_cases hn : s.length ≤ n
    · rw [stripN_succ_of_le width hw n s hn]
      exact ih hn
    · have : s.length = n + 1 := by omega
      rw [this]

theorem stripN_absorb (width : GoString → Nat) (hw : ∀ s, width s ≤ s.length)
    (happ : ∀ r t, width r ≠ 0 → width (r ++ t) = width r) (n : Nat) (a t : GoString)
    (hn : a.length ≤ n) (ha : stripN width a.length a = []) :
    stripN width (a ++ t).length (a ++ t) = stripN width t.length t := by
  induction n generalizing a with
  | zero =>
    have hs : a = [] := List.eq_nil_of_length_eq_zero (by omega)
    subst hs
    rfl
  | succ n ih =>
    cases a with
    | nil => rfl
    | cons x xs =>
      have hwa : width (x :: xs) ≠ 0 := by
        intro h0
        simp [stripN, h0] at ha
      have hle := hw (x :: xs)
      have hdrop : (x :: xs ++ t).drop (width (x :: xs))
          = (x :: xs).drop (width (x :: xs)) ++ t := by
        rw [List.drop_append_of_le_length hle]
      have hlen : ((x :: xs).drop (width (x :: xs))).length ≤ n := by
        simp only [List.length_drop, List.length_cons] at hn ⊢
        omega
      have ha2 : stripN width ((x :: xs).drop (width (x :: xs))).length
          ((x :: xs).drop (width (x :: xs))) = [] := by
        rw [← stripN_of_le width hw xs.length _ (by
          simp only [List.length_drop, List.length_cons]; omega)]
        simpa [stripN, hwa] using ha
      have hstep : stripN width (x :: xs ++ t).length (x :: xs ++ t)
          = stripN width (xs ++ t).length ((x :: xs).drop (width (x :: xs)) ++ t) := by
        have : (x :: xs ++ t).length = (xs ++ t).length + 1 := by simp
        rw [this, stripN, happ _ _ hwa, if_neg hwa, ← hdrop]
      rw [hstep, stripN_of_le width hw (xs ++ t).length _ (by
        simp only [List.length_append, List.length_drop, List.length_cons]; omega)]
      exact ih _ hlen ha2

theorem TrimLeft_absorb (lead s : GoString) (h : TrimLeft lead = []) :
    TrimLeft (lead ++ s) = TrimLeft s :=
  stripN_absorb leadSpace leadSpace_le leadSpace_append lead.length lead s (Nat.le_refl _) h

theorem TrimRight_absorb (s trail : GoString) (h : TrimRight trail = []) :
    TrimRight (s ++ trail) = TrimRight s := by
  have h1 : stripN trailSpace trail.reverse.length trail.reverse = [] := by
    have := congrArg List.reverse h
    simpa [TrimRight] using this
  have h2 := stripN_absorb trailSpace trailSpace_le trailSpace_append trail.reverse.length
    trail.reverse s.reverse (Nat.le_refl _) h1
  simp only [TrimRight, List.reverse_append]
  have e1 : (s ++ trail).length = (trail.reverse ++ s.reverse).length := by simp; omega
  have e2 : s.length = s.reverse.length := by simp
  rw [e1, h2, ← e2]

theorem leadSpace_header (d x : UInt8) (rest : GoString) :
    leadSpace (114 :: d :: x :: rest) = 0 := by
  have h1 : isAsciiSpace 114 = false := by decide
  have h2 : isSpace2 114 d = false := by simp [isSpace2]
  have h3 : isSpace3 114 d x = false := by simp [isSpace3]
  simp [leadSpace, h1, h2, h3]

theorem HeaderGrammar_leadSpace (header rest : GoString) (hg : HeaderGrammar header) :
    leadSpace (header ++ rest) = 0 := by
  rcases FindStringSubmatch_cases header with h0 | ⟨s0, s1, author, s2, date, s3, hh, hd, hs1, -⟩
  · have := (FindStringSubmatch_iff header).2 hg
    rw [h0] at this
    simp at this
  · subst hh
    cases s0 with
    | nil => simp at hd
    | cons d s0t =>
      have hdig : isDigit d = true := by
        by_contra hnd
        simp [List.takeWhile_cons, hnd] at hd
      cases s0t with
      | nil => simp [List.dropWhile_cons, hdig] at hs1
      | cons x s0u => exact leadSpace_header d x _

theorem TrimSpace_blank_around (lead header trail : GoString) (hlead : blank lead = true)
    (htrail : blank trail = true) (hg : HeaderGrammar header) :
    TrimSpace (lead ++ header ++ trail) = TrimRight header := by
  simp only [blank, Bool.and_eq_true, beq_iff_eq] at hlead htrail
  have hl : TrimLeft (header ++ trail) = header ++ trail := by
    have h0 := HeaderGrammar_leadSpace header trail hg
    unfold TrimLeft
    cases hlen : (header ++ trail).length with
    | zero => rfl
    | succ n => simp [stripN, h0]
  rw [TrimSpace, List.append_assoc, TrimLeft_absorb lead _ hlead.1, hl,
    TrimRight_absorb header trail htrail.2]

theorem stripN_all_ascii (width : GoString → Nat) (w : GoString)
    (hone : ∀ b t, isAsciiSpace b = true → width (b :: t) = 1)
    (h : ∀ b ∈ w, isAsciiSpace b = true) : stripN width w.length w = [] := by
  induction w with
  | nil => rfl
  | cons x xs ih =>
    have hx := hone x xs (h x (List.mem_cons_self _ _))
    simp only [List.length_cons, stripN, hx]
    simpa using ih (fun b hb => h b (List.mem_cons_of_mem _ hb))

theorem blank_of_isAsciiSpace (w : GoString) (h : ∀ b ∈ w, isAsciiSpace b = true) :
    blank w = true := by
  have h1 : stripN leadSpace w.length w = [] :=
    stripN_all_ascii leadSpace w (fun b t hb => by simp [leadSpace, hb]) h
  have h2 : stripN trailSpace w.reverse.length w.reverse = [] :=
    stripN_all_ascii trailSpace w.reverse (fun b t hb => by simp [trailSpace, hb])
      (fun b hb => h b (List.mem_reverse.1 hb))
  have h3 : TrimRight w = [] := by
    unfold TrimRight
    rw [List.length_reverse] at h2
    rw [h2]; rfl
  simp [blank, TrimLeft, h1, h3]

/-! ## Lemmas: splitting and number parsing -/

theorem splitGo_skip (sep t rest : GoString) :
    splitGo sep t.length (t ++ rest) = splitGo sep 0 rest := by
  induction t with
  | nil => rfl
  | cons x xs ih => simpa [splitGo] using ih

theorem intercalate_cons_head (sep piece : GoString) (c : UInt8) (pieces : List GoString) :
    sep.intercalate ((c :: piece) :: pieces) = c :: sep.intercalate (piece :: pieces) := by
  cases pieces with
  | nil => simp [List.intercalate]
  | cons p ps => simp [List.intercalate]

theorem intercalate_nil_cons (sep : GoString) (pieces : List GoString) (h : pieces ≠ []) :
    sep.intercalate ([] :: pieces) = sep ++ sep.intercalate pieces := by
  cases pieces with
  | nil => exact absurd rfl h
  | cons p ps => simp [List.intercalate]

theorem Join_splitGo (sep : GoString) (hsep : sep ≠ []) (n : Nat) (s : GoString)
    (hn : s.length ≤ n) : splitGo sep 0 s ≠ [] ∧ Join (splitGo sep 0 s) sep = s := by
  induction n generalizing s with
  | zero =>
    have : s = [] := List.eq_nil_of_length_eq_zero (by omega)
    subst this
    simp [splitGo, Join, List.intercalate]
  | succ n ih =>
    cases s with
    | nil => simp [splitGo, Join, List.intercalate]
    | cons c rest =>
      have hrest : rest.length ≤ n := by simpa using hn
      by_cases hp : sep.isPrefixOf (c :: rest) = true
      · obtain ⟨tl, htl⟩ := List.isPrefixOf_iff_prefix.1 hp
        obtain ⟨c0, sep1, rfl⟩ := List.exists_cons_of_ne_nil hsep
        have hc : c0 = c ∧ sep1 ++ tl = rest := by simpa using htl
        obtain ⟨rfl, rfl⟩ := hc
        have htl_len : tl.length ≤ n := by
          simp only [List.length_append] at hrest; omega
        obtain ⟨h1, h2⟩ := ih tl htl_len
        have hsplit : splitGo (c0 :: sep1) 0 (c0 :: (sep1 ++ tl))
            = [] :: splitGo (c0 :: sep1) 0 tl := by
          simp only [splitGo, hp, if_true, List.length_cons, Nat.add_sub_cancel]
          rw [splitGo_skip]
        rw [hsplit]
        refine ⟨by simp, ?_⟩
        simp only [Join] at h2 ⊢
        rw [intercalate_nil_cons _ _ h1, h2]
        simp
      · obtain ⟨h1, h2⟩ := ih rest hrest
        obtain ⟨piece, pieces, hpp⟩ := List.exists_cons_of_ne_nil h1
        have hsplit : splitGo sep 0 (c :: rest) = (c :: piece) :: pieces := by
          simp only [splitGo, hp, hpp]
          simp
        rw [hsplit]
        refine ⟨by simp, ?_⟩
        simp only [Join] at h2 ⊢
        rw [intercalate_cons_head, ← hpp, h2]

theorem Join_Split (s sep : GoString) (hsep : sep ≠ []) : Join (Split s sep) sep = s :=
  (Join_splitGo sep hsep s.length s (Nat.le_refl _)).2

theorem all_isDigit_false (ds : GoString) (b : UInt8) (hb : b ∈ ds) (hd : isDigit b = false) :
    ds.all isDigit = false := by
  rw [List.all_eq_false]
  exact ⟨b, hb, by simp [hd]⟩

theorem Atoi_refuses (line : GoString)
    (h : line = [] ∨ (∃ b ∈ line.tail, isDigit b = false) ∨
      (∃ b, line.head? = some b ∧ isDigit b = false ∧ b ≠ 43 ∧ b ≠ 45)) :
    Atoi line = none := by
  cases line with
  | nil => rfl
  | cons c t =>
    simp only [Atoi]
    rcases h with h | ⟨b, hb, hd⟩ | ⟨b, hb, hd, h43, h45⟩
    · exact absurd h (by simp)
    · simp only [List.tail_cons] at hb
      by_cases hc : (c == 45 || c == 43) = true
      · simp only [hc, if_true]
        split
        · rfl
        · simp [all_isDigit_false t b hb hd]
      · simp only [hc]
        simp [all_isDigit_false (c :: t) b (List.mem_cons_of_mem _ hb) hd]
    · simp only [List.head?_cons, Option.some.injEq] at hb
      subst hb
      have hc : (c == 45 || c == 43) = false := by simp [h43, h45]
      simp only [hc]
      simp [all_isDigit_false (c :: t) c (List.mem_cons_self _ _) hd]

theorem Atoi_digits (line : GoString) (hne : line ≠ []) (hd : ∀ b ∈ line, isDigit b = true)
    (hv : digitsValue line < 2 ^ 63) : Atoi line = some (digitsValue line : Int) := by
  cases line with
  | nil => exact absurd rfl hne
  | cons c t =>
    have hc : isDigit c = true := hd c (List.mem_cons_self _ _)
    have h45 : (c == 45) = false := by
      cases h : c == 45 with
      | false => rfl
      | true =>
        have : c = 45 := by simpa using h
        subst this
        exact absurd hc (by decide)
    have h43 : (c == 43) = false := by
      cases h : c == 43 with
      | false => rfl
      | true =>
        have : c = 43 := by simpa using h
        subst this
        exact absurd hc (by decide)
    have hall : (c :: t).all isDigit = true := List.all_eq_true.2 hd
    have h1 : ∀ x ∈ t, isDigit x = true := fun x hx => hd x (List.mem_cons_of_mem _ hx)
    have hv2 : digitsValue (c :: t) < 9223372036854775808 := by simpa using hv
    simp only [Atoi, h45, h43, Bool.or_self, hall, if_true]
    simp [hv2, hc]
    exact h1

/-! ## Lemmas: what `Split` and `TrimSpace` return -/

theorem Split_without_sep (s sep : GoString) (h : ∀ u w, s ≠ u ++ sep ++ w) :
    Split s sep = [s] := by
  unfold Split
  induction s with
  | nil => rfl
  | cons c rest ih =>
    have hp : ¬ (sep.isPrefixOf (c :: rest) = true) := by
      intro hb
      obtain ⟨tl, htl⟩ := List.isPrefixOf_iff_prefix.1 hb
      exact absurd (by simpa using htl.symm) (h [] tl)
    have hrest : ∀ u w, rest ≠ u ++ sep ++ w := by
      intro u w he
      exact h (c :: u) w (by simp [he])
    simp only [splitGo, hp, ih hrest]
    simp

theorem starts_with_of_le (sep tl x y : GoString) (hlen : sep.length ≤ x.length)
    (h : sep ++ tl = x ++ y) : x = sep ++ x.drop sep.length := by
  have h1 : (sep ++ tl).take sep.length = sep := by simp
  have h2 : (x ++ y).take sep.length = x.take sep.length :=
    List.take_append_of_le_length hlen
  have h3 : x.take sep.length = sep := by rw [← h2, ← h, h1]
  conv_lhs => rw [← List.take_append_drop sep.length x, h3]

theorem Split_at_first (p sep rest : GoString) (hsep : sep ≠ [])
    (h : ∀ u w, p ++ sep.dropLast ≠ u ++ sep ++ w) :
    Split (p ++ sep ++ rest) sep = p :: Split rest sep := by
  unfold Split
  induction p with
  | nil =>
    obtain ⟨c0, sep1, rfl⟩ := List.exists_cons_of_ne_nil hsep
    have hp : (c0 :: sep1).isPrefixOf (c0 :: (sep1 ++ rest)) = true :=
      List.isPrefixOf_iff_prefix.2 ⟨rest, by simp⟩
    have e : [] ++ (c0 :: sep1) ++ rest = c0 :: (sep1 ++ rest) := by simp
    have hsplit : splitGo (c0 :: sep1) 0 (c0 :: (sep1 ++ rest))
        = [] :: splitGo (c0 :: sep1) sep1.length (sep1 ++ rest) := by
      simp only [splitGo, hp, if_true, List.length_cons, Nat.add_sub_cancel]
    rw [e, hsplit, splitGo_skip]
  | cons c p1 ih =>
    have e : c :: p1 ++ sep ++ rest = c :: (p1 ++ sep ++ rest) := by simp
    have hp : ¬ (sep.isPrefixOf (c :: (p1 ++ sep ++ rest)) = true) := by
      intro hb
      obtain ⟨tl, htl⟩ := List.isPrefixOf_iff_prefix.1 hb
      have hlen : sep.length ≤ (c :: p1 ++ sep.dropLast).length := by
        have := List.length_pos.2 hsep
        simp only [List.cons_append, List.length_cons, List.length_append,
          List.length_dropLast]
        omega
      have h1 : (c :: p1 ++ sep.dropLast) ++ ([sep.getLast hsep] ++ rest)
          = c :: (p1 ++ sep ++ rest) := by
        calc (c :: p1 ++ sep.dropLast) ++ ([sep.getLast hsep] ++ rest)
            = c :: (p1 ++ (sep.dropLast ++ [sep.getLast hsep]) ++ rest) := by simp
          _ = c :: (p1 ++ sep ++ rest) := by rw [List.dropLast_append_getLast]
      have h2 := starts_with_of_le sep tl _ _ hlen (htl.trans h1.symm)
      exact h [] _ (by rw [List.nil_append]; exact h2)
    have hp1 : ∀ u w, p1 ++ sep.dropLast ≠ u ++ sep ++ w := by
      intro u w he
      exact h (c :: u) w (by simp [he])
    rw [e]
    simp only [splitGo, hp, ih hp1]
    simp

theorem Spaces_append (x y : GoString) (hx : Spaces x) (hy : Spaces y) : Spaces (x ++ y) := by
  induction hx with
  | nil => exact hy
  | ascii b w hb _ ih => exact Spaces.ascii b _ hb ih
  | two a b w hab _ ih => exact Spaces.two a b _ hab ih
  | three a b c w habc _ ih => exact Spaces.three a b c _ habc ih

theorem Spaces_take_leadSpace (s w : GoString) (h : leadSpace s ≠ 0) (hw : Spaces w) :
    Spaces (s.take (leadSpace s) ++ w) := by
  match s with
  | [] => simp [leadSpace] at h
  | [a] =>
    by_cases ha : isAsciiSpace a = true
    · simpa [leadSpace, ha] using Spaces.ascii a w ha hw
    · simp [leadSpace, ha] at h
  | [a, b] =>
    by_cases ha : isAsciiSpace a = true
    · simpa [leadSpace, ha] using Spaces.ascii a w ha hw
    · by_cases hb : isSpace2 a b = true
      · simpa [leadSpace, ha, hb] using Spaces.two a b w hb hw
      · simp [leadSpace, ha, hb] at h
  | a :: b :: c :: u =>
    by_cases ha : isAsciiSpace a = true
    · simpa [leadSpace, ha] using Spaces.ascii a w ha hw
    · by_cases hb : isSpace2 a b = true
      · simpa [leadSpace, ha, hb] using Spaces.two a b w hb hw
      · by_cases hc : isSpace3 a b c = true
        · simpa [leadSpace, ha, hb, hc] using Spaces.three a b c w hc hw
        · simp [leadSpace, ha, hb, hc] at h

theorem Spaces_take_trailSpace (r : GoString) (h : trailSpace r ≠ 0) :
    Spaces (r.take (trailSpace r)).reverse := by
  match r with
  | [] => simp [trailSpace] at h
  | [c] =>
    by_cases hc : isAsciiSpace c = true
    · simpa [trailSpace, hc] using Spaces.ascii c [] hc Spaces.nil
    · simp [trailSpace, hc] at h
  | [c, b] =>
    by_cases hc : isAsciiSpace c = true
    · simpa [trailSpace, hc] using Spaces.ascii c [] hc Spaces.nil
    · by_cases hb : isSpace2 b c = true
      · simpa [trailSpace, hc, hb] using Spaces.two b c [] hb Spaces.nil
      · simp [trailSpace, hc, hb] at h
  | c :: b :: a :: u =>
    by_cases hc : isAsciiSpace c = true
    · simpa [trailSpace, hc] using Spaces.ascii c [] hc Spaces.nil
    · by_cases hb : isSpace2 b c = true
      · simpa [trailSpace, hc, hb] using Spaces.two b c [] hb Spaces.nil
      · by_cases ha : isSpace3 a b c = true
        · simpa [trailSpace, hc, hb, ha] using Spaces.three a b c [] ha Spaces.nil
        · simp [trailSpace, hc, hb, ha] at h

theorem stripN_leadSpace_Spaces (n : Nat) (s : GoString) :
    ∃ a, s = a ++ stripN leadSpace n s ∧ Spaces a := by
  induction n generalizing s with
  | zero => exact ⟨[], rfl, Spaces.nil⟩
  | succ n ih =>
    simp only [stripN]
    split
    · exact ⟨[], rfl, Spaces.nil⟩
    · rename_i hne
      obtain ⟨a, ha, hsp⟩ := ih (s.drop (leadSpace s))
      refine ⟨s.take (leadSpace s) ++ a, ?_, Spaces_take_leadSpace s a hne hsp⟩
      rw [List.append_assoc, ← ha, List.take_append_drop]

theorem stripN_trailSpace_Spaces (n : Nat) (r : GoString) :
    ∃ a, r = a ++ stripN trailSpace n r ∧ Spaces a.reverse := by
  induction n generalizing r with
  | zero => exact ⟨[], rfl, Spaces.nil⟩
  | succ n ih =>
    simp only [stripN]
    split
    · exact ⟨[], rfl, Spaces.nil⟩
    · rename_i hne
      obtain ⟨a, ha, hsp⟩ := ih (r.drop (trailSpace r))
      refine ⟨r.take (trailSpace r) ++ a, ?_, ?_⟩
      · rw [List.append_assoc, ← ha, List.take_append_drop]
      · rw [List.reverse_append]
        exact Spaces_append _ _ hsp (Spaces_take_trailSpace r hne)

theorem leadSpace_TrimSpace (s : GoString) : leadSpace (TrimSpace s) = 0 := by
  obtain ⟨b, hb⟩ := TrimRight_initial (TrimLeft s)
  have hm : leadSpace (TrimLeft s) = 0 :=
    stripN_width_eq_zero leadSpace leadSpace_le _ _ (Nat.le_refl _)
  by_contra hne
  have hne2 : leadSpace (TrimRight (TrimLeft s)) ≠ 0 := hne
  rw [hb, leadSpace_append _ _ hne2] at hm
  exact hne2 hm

theorem TrimSpace_spec (s : GoString) :
    ∃ a b, s = a ++ TrimSpace s ++ b ∧ Spaces a ∧ Spaces b ∧
      leadSpace (TrimSpace s) = 0 ∧ trailSpace (TrimSpace s).reverse = 0 := by
  obtain ⟨a, ha, hsa⟩ := stripN_leadSpace_Spaces s.length s
  obtain ⟨b, hb, hsb⟩ := stripN_trailSpace_Spaces (TrimLeft s).length (TrimLeft s).reverse
  refine ⟨a, b.reverse, ?_, hsa, hsb, leadSpace_TrimSpace s, trailSpace_TrimRight _⟩
  have h1 : TrimLeft s = TrimSpace s ++ b.reverse := by
    have := congrArg List.reverse hb
    simpa [TrimSpace, TrimRight] using this
  rw [List.append_assoc, ← h1]
  exact ha

/-! ## Theorems: commit-message generation -/

theorem str_branch_ne_trunk : str "branch-to-trunk" ≠ str "trunk-to-branch" := by decide

theorem merged_ne_fallback (rest : GoString) : str "Merged " ++ rest ≠ str "Merge commit" := by
  have h1 : str "Merged " = [77, 101, 114, 103, 101, 100, 32] := by decide
  have h3 : str "Merge commit" = [77, 101, 114, 103, 101, 32] ++ str "commit" := by decide
  rw [h1, h3]
  simp

theorem mergedBranches_ne_fallback (rest : GoString) :
    str "Merged branches " ++ rest ≠ str "Merge commit" := by
  have h2 : str "Merged branches " = str "Merged " ++ str "branches " := by decide
  rw [h2, List.append_assoc]
  exact merged_ne_fallback _

/-- C1: for the four combinations of mode 1 or 2 with direction `trunk-to-branch` or
`branch-to-trunk`, `GenerateCommitMessage` returns exactly the message of the matching
format, built from the revisions, the branch label and the task number; for mode 2,
`branch-to-trunk`, `r10`, `r12`, `T555` and the label `/branches/feature-x` this is
`Merged branches r10 - r12 from /branches/feature-x to trunk (T555)`. -/
theorem GenerateCommitMessage_formats (B startRev endRev taskNumber : GoString) :
    GenerateCommitMessage B 1 (str "trunk-to-branch") startRev endRev taskNumber
        = str "Merged " ++ startRev ++ str " from trunk to " ++ B
    ∧ GenerateCommitMessage B 1 (str "branch-to-trunk") startRev endRev taskNumber
        = str "Merged " ++ startRev ++ str " from " ++ B ++ str " to trunk (" ++ taskNumber
            ++ str ")"
    ∧ GenerateCommitMessage B 2 (str "trunk-to-branch") startRev endRev taskNumber
        = str "Merged branches " ++ startRev ++ str " - " ++ endRev ++ str " from trunk to "
            ++ B
    ∧ GenerateCommitMessage B 2 (str "branch-to-trunk") startRev endRev taskNumber
        = str "Merged branches " ++ startRev ++ str " - " ++ endRev ++ str " from " ++ B
            ++ str " to trunk (" ++ taskNumber ++ str ")"
    ∧ GenerateCommitMessage (str "/branches/feature-x") 2 (str "branch-to-trunk") (str "r10")
          (str "r12") (str "T555")
        = str "Merged branches r10 - r12 from /branches/feature-x to trunk (T555)" := by
  refine ⟨?_, ?_, ?_, ?_, by decide⟩
  · simp [GenerateCommitMessage]
  · simp [GenerateCommitMessage, str_branch_ne_trunk]
  · simp [GenerateCommitMessage]
  · simp [GenerateCommitMessage, str_branch_ne_trunk]

/-- C5, refuted as stated: mode 1 with the direction `sideways` is none of the four
listed combinations, and the result is not the fallback string. -/
theorem GenerateCommitMessage_fallback_not_for_all_others :
    ¬ ∀ (B : GoString) (mode : Int) (direction startRev endRev taskNumber : GoString),
        ¬ ((mode = 1 ∨ mode = 2) ∧
            (direction = str "trunk-to-branch" ∨ direction = str "branch-to-trunk")) →
        GenerateCommitMessage B mode direction startRev endRev taskNumber
          = str "Merge commit" := by
  intro h
  have h1 := h (str "/branches/feature-x") 1 (str "sideways") (str "r10") (str "r12")
    (str "T555") (by decide)
  revert h1
  decide

/-- C5, amended: for every mode other than 1 and 2, and every direction, revisions and
task number, `GenerateCommitMessage` returns exactly the fallback string `Merge commit`;
for mode 1 and for mode 2, every direction other than `trunk-to-branch` gives the
branch-to-trunk format, which is not the fallback string. -/
theorem GenerateCommitMessage_fallback (B : GoString) (mode : Int)
    (direction startRev endRev taskNumber : GoString) :
    (mode ≠ 1 → mode ≠ 2 →
      GenerateCommitMessage B mode direction startRev endRev taskNumber = str "Merge commit") ∧
    (direction ≠ str "trunk-to-branch" →
      GenerateCommitMessage B 1 direction startRev endRev taskNumber
        = str "Merged " ++ startRev ++ str " from " ++ B ++ str " to trunk (" ++ taskNumber
            ++ str ")" ∧
      GenerateCommitMessage B 2 direction startRev endRev taskNumber
        = str "Merged branches " ++ startRev ++ str " - " ++ endRev ++ str " from " ++ B
            ++ str " to trunk (" ++ taskNumber ++ str ")" ∧
      GenerateCommitMessage B 1 direction startRev endRev taskNumber ≠ str "Merge commit" ∧
      GenerateCommitMessage B 2 direction startRev endRev taskNumber ≠ str "Merge commit") := by
  have h21 : ¬ ((2 : Int) = 1) := by decide
  refine ⟨fun h1 h2 => by simp [GenerateCommitMessage, h1, h2], fun hd => ?_⟩
  have e1 : GenerateCommitMessage B 1 direction startRev endRev taskNumber
      = str "Merged " ++ startRev ++ str " from " ++ B ++ str " to trunk (" ++ taskNumber
          ++ str ")" := by
    simp only [GenerateCommitMessage, if_true, hd, if_false]
  have e2 : GenerateCommitMessage B 2 direction startRev endRev taskNumber
      = str "Merged branches " ++ startRev ++ str " - " ++ endRev ++ str " from " ++ B
          ++ str " to trunk (" ++ taskNumber ++ str ")" := by
    simp only [GenerateCommitMessage, h21, if_true, hd, if_false]
  refine ⟨e1, e2, ?_, ?_⟩
  · rw [e1]
    simp only [List.append_assoc]
    exact merged_ne_fallback _
  · rw [e2]
    simp only [List.append_assoc]
    exact mergedBranches_ne_fallback _

theorem GenerateCommitMessage_fallback_witness :
    GenerateCommitMessage (str "/branches/feature-x") 3 (str "sideways") (str "r10")
      (str "r12") (str "T555") = str "Merge commit" ∧
    GenerateCommitMessage (str "/branches/feature-x") 1 (str "sideways") (str "r10")
      (str "r12") (str "T555") = str "Merged r10 from /branches/feature-x to trunk (T555)" ∧
    GenerateCommitMessage (str "/branches/feature-x") 2 (str "sideways") (str "r10")
      (str "r12") (str "T555")
        = str "Merged branches r10 - r12 from /branches/feature-x to trunk (T555)" :=
  ⟨(GenerateCommitMessage_fallback (str "/branches/feature-x") 3 (str "sideways") (str "r10")
      (str "r12") (str "T555")).1 (by decide) (by decide),
   ((GenerateCommitMessage_fallback (str "/branches/feature-x") 3 (str "sideways") (str "r10")
      (str "r12") (str "T555")).2 (by decide)).1.trans (by decide),
   ((GenerateCommitMessage_fallback (str "/branches/feature-x") 3 (str "sideways") (str "r10")
      (str "r12") (str "T555")).2 (by decide)).2.1.trans (by decide)⟩

/-- C6: for mode 1 or 2 with direction `trunk-to-branch` or `branch-to-trunk`, and any
revisions, task number and branch label, the result of `GenerateCommitMessage` is never
the fallback string `Merge commit`. -/
theorem GenerateCommitMessage_never_fallback (B : GoString) (mode : Int)
    (direction startRev endRev taskNumber : GoString)
    (hmode : mode = 1 ∨ mode = 2)
    (hdir : direction = str "trunk-to-branch" ∨ direction = str "branch-to-trunk") :
    GenerateCommitMessage B mode direction startRev endRev taskNumber ≠ str "Merge commit" := by
  have h21 : ¬ ((2 : Int) = 1) := by decide
  unfold GenerateCommitMessage
  rcases hmode with h | h <;> rcases hdir with hd | hd <;> subst h <;> subst hd
  · simp only [if_true, List.append_assoc]
    exact merged_ne_fallback _
  · simp only [if_true, str_branch_ne_trunk, if_false, List.append_assoc]
    exact merged_ne_fallback _
  · simp only [h21, if_true, if_false, List.append_assoc]
    exact mergedBranches_ne_fallback _
  · simp only [h21, if_true, str_branch_ne_trunk, if_false, List.append_assoc]
    exact mergedBranches_ne_fallback _

theorem GenerateCommitMessage_never_fallback_witness :
    GenerateCommitMessage [] 1 (str "branch-to-trunk") [] [] [] ≠ str "Merge commit" :=
  GenerateCommitMessage_never_fallback [] 1 (str "branch-to-trunk") [] [] []
    (Or.inl rfl) (Or.inr rfl)

/-! ## Theorems: the revision table -/

theorem displayRound_some (i : Nat) (s : DisplayState) (element : Revision)
    (h : s.revisions[i]? = some element) :
    (displayRound i s).revisions = s.revisions ∧
    (displayRound i s).printed = s.printed ++
      [{ No := i + 1, Number := element.Number, Author :=
          if element.Author.length > 15 then element.Author.take 12 ++ str "..."
          else element.Author,
         Message := element.Message }] := by
  unfold displayRound
  simp only [h]
  split <;> simp

theorem displayRound_revisions (i : Nat) (s : DisplayState) :
    (displayRound i s).revisions = s.revisions := by
  cases h : s.revisions[i]? with
  | none => simp [displayRound, h]
  | some element => exact (displayRound_some i s element h).1

theorem displayRounds_revisions (n i : Nat) (s : DisplayState) :
    (displayRounds n i s).revisions = s.revisions := by
  induction n generalizing i s with
  | zero => rfl
  | succ n ih => rw [displayRounds, ih, displayRound_revisions]

theorem displayRounds_printed_initial (n i : Nat) (s : DisplayState) :
    ∃ more, (displayRounds n i s).printed = s.printed ++ more := by
  induction n generalizing i s with
  | zero => exact ⟨[], by simp [displayRounds]⟩
  | succ n ih =>
    obtain ⟨more, hm⟩ := ih (i + 1) (displayRound i s)
    cases h : s.revisions[i]? with
    | none =>
      have : displayRound i s = s := by simp [displayRound, h]
      rw [this] at hm
      exact ⟨more, by rw [displayRounds, this, hm]⟩
    | some element =>
      rw [(displayRound_some i s element h).2] at hm
      refine ⟨{ No := i + 1, Number := element.Number, Author :=
          if element.Author.length > 15 then element.Author.take 12 ++ str "..."
          else element.Author,
                Message := element.Message } :: more, ?_⟩
      rw [displayRounds, hm]
      simp

theorem displayRounds_printed (n i j : Nat) (s : DisplayState) (rev : Revision)
    (hi : i ≤ j) (hj : j < i + n) (h : s.revisions[j]? = some rev) :
    (displayRounds n i s).printed[s.printed.length + (j - i)]?
      = some { No := j + 1, Number := rev.Number, Author :=
          if rev.Author.length > 15 then rev.Author.take 12 ++ str "..." else rev.Author,
               Message := rev.Message } := by
  induction n generalizing i s with
  | zero => omega
  | succ n ih =>
    rw [displayRounds]
    by_cases hij : i = j
    · subst hij
      obtain ⟨hr, hp⟩ := displayRound_some i s rev h
      obtain ⟨more, hm⟩ := displayRounds_printed_initial n (i + 1) (displayRound i s)
      rw [hm, hp, Nat.sub_self, Nat.add_zero, List.append_assoc]
      exact List.getElem?_append_right (Nat.le_refl _) |>.trans (by simp)
    · have hlt : i < j := by omega
      have hlen : i < s.revisions.length := by
        have := (List.getElem?_eq_some_iff.1 h).1
        omega
      obtain ⟨hr, hp⟩ := displayRound_some i s s.revisions[i]
        (List.getElem?_eq_getElem hlen)
      have := ih (i + 1) (displayRound i s) (by omega) (by omega) (by rw [hr]; exact h)
      rw [hp] at this
      simp only [List.length_append, List.length_singleton] at this
      have e : s.printed.length + 1 + (j - (i + 1)) = s.printed.length + (j - i) := by omega
      rw [e] at this
      exact this


/-- C9, refuted as stated: the author `éééééééé` has 8 characters, which is at most 15,
yet its 16 bytes exceed 15 and the row shows its first 12 bytes followed by `...`. -/
theorem DisplayRevisions_author_counts_bytes :
    "éééééééé".length = 8 ∧
    (DisplayRevisions [⟨str "r7", str "éééééééé", [], []⟩]).1
      = [⟨1, str "r7", str "éééééé...", []⟩] ∧
    str "éééééé..." ≠ str "éééééééé" := by
  decide

/-- C9, amended: with lengths counted in bytes, as `len` does: the row `DisplayRevisions`
prints for the record at index `i` carries the stored `Author` unchanged when it has at
most 15 bytes, and its first 12 bytes followed by `...`, 15 bytes in all, when it has
more; the elements of the slice are unchanged when the function returns. -/
theorem DisplayRevisions_author (revisions : List Revision) (i : Nat) (rev : Revision)
    (h : revisions[i]? = some rev) :
    (∃ row, (DisplayRevisions revisions).1[i]? = some row ∧ row.No = i + 1 ∧
      row.Number = rev.Number ∧ row.Message = rev.Message ∧
      (rev.Author.length ≤ 15 → row.Author = rev.Author) ∧
      (rev.Author.length > 15 →
        row.Author = rev.Author.take 12 ++ str "..." ∧ row.Author.length = 15)) ∧
    (DisplayRevisions revisions).2 = revisions := by
  have hlt : i < revisions.length := (List.getElem?_eq_some_iff.1 h).1
  have hrow := displayRounds_printed revisions.length 0 i
    { revisions := revisions, rev := ⟨[], [], [], []⟩, author := [], printed := [] } rev
    (Nat.zero_le _) (by omega) h
  have h3 : (str "...").length = 3 := by decide
  refine ⟨⟨_, by simpa [DisplayRevisions] using hrow, rfl, rfl, rfl, ?_, ?_⟩, ?_⟩
  · intro hle
    have : ¬ rev.Author.length > 15 := by omega
    simp [this]
  · intro hgt
    simp [hgt, h3]
    omega
  · exact displayRounds_revisions _ _ _

theorem DisplayRevisions_author_witness :
    (∃ row, (DisplayRevisions [⟨str "r7", str "bartholomew.fitzroy1", [], []⟩]).1[0]? = some row ∧
      row.No = 0 + 1 ∧ row.Number = str "r7" ∧ row.Message = [] ∧
      ((str "bartholomew.fitzroy1").length ≤ 15 → row.Author = str "bartholomew.fitzroy1") ∧
      ((str "bartholomew.fitzroy1").length > 15 →
        row.Author = (str "bartholomew.fitzroy1").take 12 ++ str "..." ∧
          row.Author.length = 15)) ∧
    (DisplayRevisions [⟨str "r7", str "bartholomew.fitzroy1", [], []⟩]).2
      = [⟨str "r7", str "bartholomew.fitzroy1", [], []⟩] :=
  DisplayRevisions_author [⟨str "r7", str "bartholomew.fitzroy1", [], []⟩] 0
    ⟨str "r7", str "bartholomew.fitzroy1", [], []⟩ (by decide)

/-! ## Theorems: selecting a revision -/

theorem SelectSingleRevision_reject (revisions : List Revision) (line : GoString)
    (script : List GoString)
    (h : Atoi line = none ∨ ∃ k, Atoi line = some k ∧ (k < 1 ∨ k > (revisions.length : Int))) :
    SelectSingleRevision revisions (line :: script) = SelectSingleRevision revisions script := by
  rcases h with h | ⟨k, hk, hr⟩
  · simp [SelectSingleRevision, h]
  · simp [SelectSingleRevision, hk, hr]

theorem SelectSingleRevision_accept (revisions : List Revision) (line : GoString)
    (script : List GoString) (k : Int) (hk : Atoi line = some k) (h1 : 1 ≤ k)
    (h2 : k ≤ (revisions.length : Int)) :
    ∃ rev, revisions[(k - 1).toNat]? = some rev ∧ rev ∈ revisions ∧
      SelectSingleRevision revisions (line :: script) = Outcome.returned rev.Number := by
  have hlt : (k - 1).toNat < revisions.length := by omega
  refine ⟨revisions[(k - 1).toNat], ?_, List.getElem_mem _, ?_⟩
  · exact List.getElem?_eq_getElem hlt
  · have hn : ¬ (k < 1 ∨ k > (revisions.length : Int)) := by omega
    have hget : revisions[(k - 1).toNat]? = some revisions[(k - 1).toNat] :=
      List.getElem?_eq_getElem hlt
    simp only [SelectSingleRevision, hk, hn, if_false, hget]

theorem SelectSingleRevision_in_range (revisions : List Revision) (script : List GoString) :
    SelectSingleRevision revisions script ≠ Outcome.indexOutOfRange := by
  induction script with
  | nil => simp [SelectSingleRevision]
  | cons line script ih =>
    cases hk : Atoi line with
    | none => simpa [SelectSingleRevision, hk] using ih
    | some k =>
      by_cases hr : k < 1 ∨ k > (revisions.length : Int)
      · simpa [SelectSingleRevision, hk, hr] using ih
      · obtain ⟨rev, -, -, h⟩ :=
          SelectSingleRevision_accept revisions line script k hk (by omega) (by omega)
        rw [h]; simp

theorem SelectSingleRevision_skip (revisions : List Revision) (rejected script : List GoString)
    (h : ∀ l ∈ rejected,
      Atoi l = none ∨ ∃ j, Atoi l = some j ∧ (j < 1 ∨ j > (revisions.length : Int))) :
    SelectSingleRevision revisions (rejected ++ script)
      = SelectSingleRevision revisions script := by
  induction rejected with
  | nil => rfl
  | cons l rest ih =>
    rw [List.cons_append, SelectSingleRevision_reject revisions l _ (h l (by simp))]
    exact ih (fun l hl => h l (by simp [hl]))

/-- C7: for a batch of `N ≥ 1` records read against a script of trimmed lines, a line
that `Atoi` refuses or that parses outside `[1, N]` (so one that parses to `0` or to
`N + 1`) is passed over and the next line is read; the first line that parses to a `k`
with `1 ≤ k ≤ N` (so one that parses to `1` or to `N`) makes the function return the
`Number` of `revisions[k-1]`, a record of the batch; the index is never out of range.
`Atoi` refuses the empty line and every line with a byte that is not a digit, a sign in
first place apart, and it parses a run of digits to its decimal value. -/
theorem SelectSingleRevision_bounds (revisions : List Revision) (hN : 1 ≤ revisions.length) :
    (∀ line script,
      (Atoi line = none ∨
        ∃ k, Atoi line = some k ∧ (k < 1 ∨ k > (revisions.length : Int))) →
      SelectSingleRevision revisions (line :: script)
        = SelectSingleRevision revisions script) ∧
    (∀ line script, (Atoi line = some 0 ∨ Atoi line = some ((revisions.length : Int) + 1)) →
      SelectSingleRevision revisions (line :: script)
        = SelectSingleRevision revisions script) ∧
    (∀ rejected line k script,
      (∀ l ∈ rejected,
        Atoi l = none ∨ ∃ j, Atoi l = some j ∧ (j < 1 ∨ j > (revisions.length : Int))) →
      Atoi line = some k → 1 ≤ k → k ≤ (revisions.length : Int) →
      ∃ rev, revisions[(k - 1).toNat]? = some rev ∧ rev ∈ revisions ∧
        SelectSingleRevision revisions (rejected ++ line :: script)
          = Outcome.returned rev.Number) ∧
    (∀ line script, Atoi line = some 1 →
      ∃ rev, revisions[0]? = some rev ∧
        SelectSingleRevision revisions (line :: script) = Outcome.returned rev.Number) ∧
    (∀ line script, Atoi line = some (revisions.length : Int) →
      ∃ rev, revisions[revisions.length - 1]? = some rev ∧
        SelectSingleRevision revisions (line :: script) = Outcome.returned rev.Number) ∧
    (∀ script, SelectSingleRevision revisions script ≠ Outcome.indexOutOfRange) ∧
    (∀ line, (line = [] ∨ (∃ b ∈ line.tail, isDigit b = false) ∨
        (∃ b, line.head? = some b ∧ isDigit b = false ∧ b ≠ 43 ∧ b ≠ 45)) →
      Atoi line = none) ∧
    (∀ line, line ≠ [] → (∀ b ∈ line, isDigit b = true) → digitsValue line < 2 ^ 63 →
      Atoi line = some (digitsValue line : Int)) := by
  refine ⟨fun line script h => SelectSingleRevision_reject revisions line script h,
    ?_, ?_, ?_, ?_, SelectSingleRevision_in_range revisions, Atoi_refuses, Atoi_digits⟩
  · intro line script h
    apply SelectSingleRevision_reject
    rcases h with h | h
    · exact Or.inr ⟨0, h, Or.inl (by decide)⟩
    · exact Or.inr ⟨_, h, Or.inr (by omega)⟩
  · intro rejected line k script hrej hk h1 h2
    rw [SelectSingleRevision_skip revisions rejected _ hrej]
    exact SelectSingleRevision_accept revisions line script k hk h1 h2
  · intro line script hk
    obtain ⟨rev, h1, -, h2⟩ :=
      SelectSingleRevision_accept revisions line script 1 hk (by decide) (by omega)
    exact ⟨rev, by simpa using h1, h2⟩
  · intro line script hk
    obtain ⟨rev, h1, -, h2⟩ :=
      SelectSingleRevision_accept revisions line script _ hk (by omega) (by omega)
    refine ⟨rev, ?_, h2⟩
    have : ((revisions.length : Int) - 1).toNat = revisions.length - 1 := by omega
    rw [← this]; exact h1

theorem SelectSingleRevision_bounds_witness :
    1 ≤ [(⟨str "r9", [], [], []⟩ : Revision), ⟨str "r8", [], [], []⟩].length ∧
    ∃ rev, [(⟨str "r9", [], [], []⟩ : Revision), ⟨str "r8", [], [], []⟩][((2 : Int) - 1).toNat]?
        = some rev ∧
      rev ∈ [(⟨str "r9", [], [], []⟩ : Revision), ⟨str "r8", [], [], []⟩] ∧
      SelectSingleRevision [⟨str "r9", [], [], []⟩, ⟨str "r8", [], [], []⟩]
          ([str "0", str "3", str "two"] ++ str "2" :: [str "1"])
        = Outcome.returned rev.Number :=
  ⟨by decide,
   (SelectSingleRevision_bounds [⟨str "r9", [], [], []⟩, ⟨str "r8", [], [], []⟩]
      (by decide)).2.2.1 [str "0", str "3", str "two"] (str "2") 2 [str "1"]
      (by
        intro l hl
        simp only [List.mem_cons, List.mem_singleton, List.not_mem_nil, or_false] at hl
        rcases hl with rfl | rfl | rfl
        · exact Or.inr ⟨0, by decide, Or.inl (by decide)⟩
        · exact Or.inr ⟨3, by decide, Or.inr (by decide)⟩
        · exact Or.inl (by decide))
      (by decide) (by decide) (by decide)⟩

/-! ## Theorems: the parser -/

theorem parseSVNLog_sampleLog : (parseSVNLog sampleLog).1 = [sampleShort, sampleLong] := by
  decide

theorem accepted_iff_parseEntry (segment : GoString) :
    accepted segment = true ↔ ∃ r, parseEntry segment = some r := by
  unfold accepted headerLineOf linesOf
  simp only [Bool.and_eq_true, bne_iff_ne, ne_eq, decide_eq_true_eq]
  constructor
  · rintro ⟨⟨h1, h2⟩, h3⟩
    have h2b : ¬ ((Split (TrimSpace segment) (str "\n")).length < 2) := by omega
    unfold parseEntry
    simp only [h1, if_false, h2b, h3, if_true]
    exact ⟨_, rfl⟩
  · rintro ⟨r, hr⟩
    obtain ⟨h1, h2, h3, -⟩ := parseEntry_eq_some segment r hr
    exact ⟨⟨h1, h2⟩, h3⟩

theorem filter_accepted_forall₂ (segments : List GoString) :
    List.Forall₂ (fun segment r => parseEntry segment = some r) (segments.filter accepted)
      (segments.filterMap parseEntry) := by
  induction segments with
  | nil => exact List.Forall₂.nil
  | cons s rest ih =>
    cases hp : parseEntry s with
    | none =>
      have ha : accepted s = false := by
        cases h : accepted s with
        | false => rfl
        | true =>
          obtain ⟨r, hr⟩ := (accepted_iff_parseEntry s).1 h
          rw [hp] at hr
          exact absurd hr (by simp)
      simpa [List.filter_cons, ha, List.filterMap_cons, hp] using ih
    | some r =>
      have ha : accepted s = true := (accepted_iff_parseEntry s).2 ⟨r, hp⟩
      simp only [List.filter_cons, ha, if_true, List.filterMap_cons, hp]
      exact List.Forall₂.cons hp ih

/-- C2, refuted as stated: the message of `accentLog` has 31 characters, each of two bytes;
31 is at most 60, yet the stored message is not the joined message but its first 57 bytes
followed by `...`. -/
theorem parseSVNLog_cap_counts_bytes :
    accentMessage.length = 31 ∧
    Split accentLog divider = [[], accentEntry, str "\n"] ∧
    joinedMessage (linesOf accentEntry) = str accentMessage ∧
    (parseSVNLog accentLog).1
      = [⟨str "r7", str "zoe", str "2024-01-01", (str accentMessage).take 57 ++ str "..."⟩] ∧
    (str accentMessage).take 57 ++ str "..." ≠ str accentMessage := by
  decide

/-- C2, amended: with lengths counted in bytes, as `len` does: every record `parseSVNLog`
returns comes from a segment of the log; when the joined message of that segment has at
most 60 bytes the stored `Message` is the joined message unchanged, and when it has more
the stored `Message` is its first 57 bytes followed by `...`, 60 bytes in all. -/
theorem parseSVNLog_message_cap (logOutput : GoString) (r : Revision)
    (h : r ∈ (parseSVNLog logOutput).1) :
    ∃ entry ∈ Split logOutput divider, parseEntry entry = some r ∧
      ((joinedMessage (linesOf entry)).length ≤ 60 →
        r.Message = joinedMessage (linesOf entry)) ∧
      ((joinedMessage (linesOf entry)).length > 60 →
        r.Message = (joinedMessage (linesOf entry)).take 57 ++ str "..." ∧
        r.Message.length = 60) := by
  obtain ⟨entry, hmem, he⟩ := (mem_parseSVNLog logOutput r).1 h
  obtain ⟨-, -, -, hr⟩ := parseEntry_eq_some entry r he
  refine ⟨entry, hmem, he, ?_⟩
  rw [hr]
  exact capMessage_spec _

theorem parseSVNLog_message_cap_witness :
    ∃ entry ∈ Split sampleLog divider, parseEntry entry = some sampleLong ∧
      ((joinedMessage (linesOf entry)).length ≤ 60 →
        sampleLong.Message = joinedMessage (linesOf entry)) ∧
      ((joinedMessage (linesOf entry)).length > 60 →
        sampleLong.Message = (joinedMessage (linesOf entry)).take 57 ++ str "..." ∧
        sampleLong.Message.length = 60) :=
  parseSVNLog_message_cap sampleLog sampleLong (by rw [parseSVNLog_sampleLog]; simp)

/-- C3: the segments are the pieces of the log between dividers: `Split` cuts at the
first occurrence of the separator and goes on with the rest, and a text without the
separator is one piece.  Trimming a segment removes the white-space runes around it and
leaves a text that neither starts nor ends with one.  The records `parseSVNLog` returns
correspond one to one, in the order of the input, to the segments that pass the three
tests: the segment is not empty after trimming, the trimmed segment has at least two
lines, and its trimmed first line is in the language of the header pattern.  A segment
whose header line is not in that language gives no record, and the error result is `nil`.
On `mixedLog` the result is the first and the fourth entry, in this order. -/
theorem parseSVNLog_segments (logOutput : GoString) :
    Join (Split logOutput divider) divider = logOutput ∧
    (∀ s sep : GoString, (∀ u w, s ≠ u ++ sep ++ w) → Split s sep = [s]) ∧
    (∀ p sep rest : GoString, sep ≠ [] → (∀ u w, p ++ sep.dropLast ≠ u ++ sep ++ w) →
      Split (p ++ sep ++ rest) sep = p :: Split rest sep) ∧
    (∀ s, ∃ a b, s = a ++ TrimSpace s ++ b ∧ Spaces a ∧ Spaces b ∧
      leadSpace (TrimSpace s) = 0 ∧ trailSpace (TrimSpace s).reverse = 0) ∧
    List.Forall₂ (fun segment r => parseEntry segment = some r)
      ((Split logOutput divider).filter accepted) (parseSVNLog logOutput).1 ∧
    (parseSVNLog logOutput).1.length = ((Split logOutput divider).filter accepted).length ∧
    (∀ segment, accepted segment = true ↔
      (TrimSpace segment ≠ [] ∧ 2 ≤ (linesOf segment).length ∧
        HeaderGrammar (headerLineOf segment))) ∧
    (∀ segment, ¬ HeaderGrammar (headerLineOf segment) → parseEntry segment = none) ∧
    (parseSVNLog logOutput).2 = none ∧
    (parseSVNLog mixedLog).1
      = [sampleShort, ⟨str "r10", str "dave", str "2024-01-01", str "Last one"⟩] := by
  have hacc : ∀ segment, accepted segment = true ↔
      (TrimSpace segment ≠ [] ∧ 2 ≤ (linesOf segment).length ∧
        HeaderGrammar (headerLineOf segment)) := by
    intro segment
    rw [← FindStringSubmatch_iff]
    simp [accepted, and_assoc]
  have hall := filter_accepted_forall₂ (Split logOutput divider)
  rw [← parseSVNLog_eq] at hall
  refine ⟨Join_Split logOutput divider (by decide), Split_without_sep,
    fun p sep rest hsep h => Split_at_first p sep rest hsep h, TrimSpace_spec, hall,
    hall.length_eq.symm, hacc, ?_, rfl, by decide⟩
  intro segment hng
  cases hp : parseEntry segment with
  | none => rfl
  | some r =>
    have := (hacc segment).1 ((accepted_iff_parseEntry segment).2 ⟨r, hp⟩)
    exact absurd this.2.2 hng

/-- C4, refuted as stated: the header line of `blankEntry` matches the pattern and its
only other line is blank; the entry is dropped, and the log that holds it yields no
record at all. -/
theorem parseSVNLog_blank_body_dropped :
    (FindStringSubmatch (str "r5 | bob | 2024-01-01 | 1 line")).length ≥ 4 ∧
    Split blankLog divider = [[], blankEntry, str "\n"] ∧
    Split blankEntry (str "\n") = [[], str "r5 | bob | 2024-01-01 | 1 line", [], []] ∧
    linesOf blankEntry = [str "r5 | bob | 2024-01-01 | 1 line"] ∧
    parseEntry blankEntry = none ∧
    (parseSVNLog blankLog).1 = [] := by
  decide

/-- C4, amended: a segment that consists of one header line in the language of the header
pattern, with nothing but white space (blank or white-space-only lines) before and after
it, gives no record: trimming leaves the header line alone, and a segment of fewer than
two lines is passed over.  The records of the log are those of the other segments, and
nothing fails. -/
theorem parseSVNLog_drops_blank_body (lead header trail : GoString)
    (hlead : blank lead = true) (htrail : blank trail = true)
    (hline : (10 : UInt8) ∉ header) (hgrammar : HeaderGrammar header) :
    TrimSpace (lead ++ header ++ trail) = TrimRight header ∧
    linesOf (lead ++ header ++ trail) = [TrimRight header] ∧
    parseEntry (lead ++ header ++ trail) = none ∧
    ∀ (before after : List GoString) (revisions : List Revision),
      parseLoop (before ++ (lead ++ header ++ trail) :: after) revisions
        = parseLoop (before ++ after) revisions := by
  have htrim := TrimSpace_blank_around lead header trail hlead htrail hgrammar
  have hno : (10 : UInt8) ∉ TrimSpace (lead ++ header ++ trail) := by
    rw [htrim]
    obtain ⟨b, hb⟩ := TrimRight_initial header
    intro hmem
    apply hline
    rw [hb]
    exact List.mem_append_left _ hmem
  have hnone : parseEntry (lead ++ header ++ trail) = none :=
    parseEntry_single_line _ (Or.inr hno)
  have hlines := linesOf_single_line (lead ++ header ++ trail) (Or.inr hno)
  rw [htrim] at hlines
  refine ⟨htrim, hlines, hnone, ?_⟩
  intro before after revisions
  rw [parseLoop_eq, parseLoop_eq, List.filterMap_append, List.filterMap_append,
    List.filterMap_cons, hnone]

theorem parseSVNLog_drops_blank_body_witness :
    TrimSpace (str "\n" ++ str "r5 | bob | 2024-01-01 | 1 line" ++ str "\n \t\n")
      = TrimRight (str "r5 | bob | 2024-01-01 | 1 line") ∧
    linesOf (str "\n" ++ str "r5 | bob | 2024-01-01 | 1 line" ++ str "\n \t\n")
      = [TrimRight (str "r5 | bob | 2024-01-01 | 1 line")] ∧
    parseEntry (str "\n" ++ str "r5 | bob | 2024-01-01 | 1 line" ++ str "\n \t\n") = none ∧
    ∀ (before after : List GoString) (revisions : List Revision),
      parseLoop
          (before ++ (str "\n" ++ str "r5 | bob | 2024-01-01 | 1 line" ++ str "\n \t\n") :: after)
          revisions
        = parseLoop (before ++ after) revisions :=
  parseSVNLog_drops_blank_body (str "\n") (str "r5 | bob | 2024-01-01 | 1 line")
    (str "\n \t\n") (by decide) (by decide) (by decide)
    ((FindStringSubmatch_iff _).1 (by decide))

/-- C8: the `Number` of every record `parseSVNLog` returns is `r` followed by one or more
decimal digits and nothing else, and the header line of the segment the record comes from
is `r`, these digits, and a rest that does not start with a digit. -/
theorem parseSVNLog_number (logOutput : GoString) (r : Revision)
    (h : r ∈ (parseSVNLog logOutput).1) :
    ∃ digits, r.Number = str "r" ++ digits ∧ digits ≠ [] ∧ (∀ d ∈ digits, isDigit d = true) ∧
      ∃ entry ∈ Split logOutput divider, parseEntry entry = some r ∧
        ∃ rest, headerLineOf entry = str "r" ++ digits ++ rest ∧
          rest.takeWhile isDigit = [] := by
  obtain ⟨entry, hmem, he⟩ := (mem_parseSVNLog logOutput r).1 h
  obtain ⟨-, -, hlen, hr⟩ := parseEntry_eq_some entry r he
  rcases FindStringSubmatch_cases (TrimSpace ((Split (TrimSpace entry) (str "\n")).getD 0 []))
    with h0 | ⟨s0, s1, author, s2, date, s3, hh, hd, -, -, -, -, hf⟩
  · rw [h0] at hlen; simp at hlen
  · refine ⟨s0.takeWhile isDigit, ?_, hd, fun d hd => List.mem_takeWhile_imp hd, entry, hmem, he,
      s0.dropWhile isDigit, ?_, ?_⟩
    · rw [hr, hf]; rfl
    · show TrimSpace ((Split (TrimSpace entry) (str "\n")).getD 0 []) = _
      rw [hh, str_r]
      simp
    · cases hdw : s0.dropWhile isDigit with
      | nil => rfl
      | cons x xs =>
        have := List.head_dropWhile_not isDigit s0 (by simp [hdw])
        simp only [hdw, List.head_cons] at this
        simp [List.takeWhile_cons, this]

theorem parseSVNLog_number_witness :
    ∃ digits, sampleShort.Number = str "r" ++ digits ∧ digits ≠ [] ∧
      (∀ d ∈ digits, isDigit d = true) ∧
      ∃ entry ∈ Split sampleLog divider, parseEntry entry = some sampleShort ∧
        ∃ rest, headerLineOf entry = str "r" ++ digits ++ rest ∧
          rest.takeWhile isDigit = [] :=
  parseSVNLog_number sampleLog sampleShort (by rw [parseSVNLog_sampleLog]; simp)

/-- C10: every record `parseSVNLog` returns has a non-empty `Message`: the last line of
the trimmed segment it comes from is not blank, so the segment has at least one non-blank
line after its first line.  A segment without such a line gives no record. -/
theorem parseSVNLog_message_nonempty (logOutput : GoString) (r : Revision)
    (h : r ∈ (parseSVNLog logOutput).1) :
    r.Message ≠ [] ∧
    (∃ entry ∈ Split logOutput divider, parseEntry entry = some r ∧
      2 ≤ (linesOf entry).length ∧
      (∃ last, (linesOf entry).getLast? = some last ∧ TrimSpace last ≠ []) ∧
      messageLines (linesOf entry) ≠ []) ∧
    (∀ entry, messageLines (linesOf entry) = [] → parseEntry entry = none) := by
  obtain ⟨entry, hmem, he⟩ := (mem_parseSVNLog logOutput r).1 h
  have hm := parseEntry_message_ne_nil entry r he
  have hlen := (parseEntry_eq_some entry r he).2.1
  refine ⟨hm.1, ⟨entry, hmem, he, hlen, hm.2.2, hm.2.1⟩, ?_⟩
  intro entry2 hnil
  cases hp : parseEntry entry2 with
  | none => rfl
  | some r2 => exact absurd hnil (parseEntry_message_ne_nil entry2 r2 hp).2.1

theorem parseSVNLog_message_nonempty_witness :
    sampleShort.Message ≠ [] ∧
    (∃ entry ∈ Split sampleLog divider, parseEntry entry = some sampleShort ∧
      2 ≤ (linesOf entry).length ∧
      (∃ last, (linesOf entry).getLast? = some last ∧ TrimSpace last ≠ []) ∧
      messageLines (linesOf entry) ≠ []) ∧
    (∀ entry, messageLines (linesOf entry) = [] → parseEntry entry = none) :=
  parseSVNLog_message_nonempty sampleLog sampleShort (by rw [parseSVNLog_sampleLog]; simp)

end SvnMergeTool
